import Mathlib

/-!
Verification development for the codex-autopatch model-list patcher
(`src/patch_models.go`).  Text is modelled as `List Char`; every Go regular
expression is hand-compiled into an explicit matcher with the leftmost-first,
greedy semantics of Go's `regexp` package.  Find-all and replace-all scanners
take a fuel argument (instantiated with the text length) so that all
definitions stay structurally recursive and kernel-evaluable.
-/

namespace CodexPatch

/-- Text is a list of characters (Go strings are byte sequences; all the
patterns involved are ASCII, where byte order and code-point order agree). -/
abbrev Str := List Char

/-- Go `unicode.IsSpace` (the Unicode white-space code points), by code
point. -/
def isGoSpace (c : Char) : Bool :=
  decide (c.toNat = 32 ∨ c.toNat = 9 ∨ c.toNat = 10 ∨ c.toNat = 11 ∨
    c.toNat = 12 ∨ c.toNat = 13 ∨ c.toNat = 133 ∨ c.toNat = 160 ∨
    c.toNat = 5760 ∨ (8192 ≤ c.toNat ∧ c.toNat ≤ 8202) ∨ c.toNat = 8232 ∨
    c.toNat = 8233 ∨ c.toNat = 8239 ∨ c.toNat = 8287 ∨ c.toNat = 12288)

/-- The RE2 character class `\s` = `[\t\n\f\r ]`. -/
def isRegexSpace (c : Char) : Bool :=
  decide (c.toNat = 9 ∨ c.toNat = 10 ∨ c.toNat = 12 ∨ c.toNat = 13 ∨ c.toNat = 32)

/-- The character class `[0-9]`. -/
def isDigitChar (c : Char) : Bool := decide (48 ≤ c.toNat ∧ c.toNat ≤ 57)

/-- The RE2 character class `\w` = `[0-9A-Za-z_]`. -/
def isWordChar (c : Char) : Bool :=
  decide ((48 ≤ c.toNat ∧ c.toNat ≤ 57) ∨ (65 ≤ c.toNat ∧ c.toNat ≤ 90) ∨
    (97 ≤ c.toNat ∧ c.toNat ≤ 122) ∨ c.toNat = 95)

/-- The character class `[\w\.-]` used by the model-name patterns. -/
def isModelChar (c : Char) : Bool := isWordChar c || c.toNat = 46 || c.toNat = 45

/-- The character class `[A-Z]`. -/
def isUpperAZ (c : Char) : Bool := decide (65 ≤ c.toNat ∧ c.toNat ≤ 90)

/-- The character class `[A-Z0-9_]`. -/
def isUpperNum (c : Char) : Bool := isUpperAZ c || isDigitChar c || c.toNat = 95

/-- Go `strings.TrimSpace`. -/
def trimSpace (l : Str) : Str :=
  ((l.dropWhile isGoSpace).reverse.dropWhile isGoSpace).reverse

/-- Go `strings.TrimPrefix`. -/
def trimPrefixStr (p l : Str) : Str :=
  if p.isPrefixOf l then l.drop p.length else l

/-- Go `strings.TrimSuffix`. -/
def trimSuffixStr (p l : Str) : Str :=
  if p.isSuffixOf l then l.take (l.length - p.length) else l

/-- `stripQuotes` (patch_models.go lines 82-89): trim space, then strip at
most one leading `"`, one leading `'`, one trailing `"`, one trailing `'`. -/
def stripQuotes (name : Str) : Str :=
  let t0 := trimSpace name
  let t1 := trimPrefixStr ['"'] t0
  let t2 := trimPrefixStr ['\''] t1
  let t3 := trimSuffixStr ['"'] t2
  trimSuffixStr ['\''] t3

/-- `normalizeName` (lines 91-99).  The anchored pattern
`^(gpt-5)-([0-9]+)([\w\.-]*)$` matches exactly when the stripped token is
`gpt-5-` followed by a digit-initial run of `[\w.-]` characters; the printf
then rewrites the first dash after the family prefix into a dot. -/
def normalizeName (name : Str) : Str :=
  let raw := stripQuotes name
  let rest := raw.drop 6
  if ("gpt-5-".toList).isPrefixOf raw && isDigitChar (rest.headD ' ') &&
      rest.all isModelChar then
    "gpt-5.".toList ++ rest
  else raw

/-- `quote` (lines 101-103). -/
def quote (name : Str) : Str := '"' :: (normalizeName name ++ ['"'])

/-- Digit run to a natural number. -/
def digitsToNat (s : Str) : Nat :=
  s.foldl (fun n c => n * 10 + (c.toNat - 48)) 0

/-- Go `strconv.Atoi` with the error ignored, as at the call sites: `0` for a
malformed string, the clamped value on 64-bit overflow. -/
def goAtoi (s : Str) : Int :=
  if s.isEmpty then 0
  else if s.all isDigitChar then min (digitsToNat s) (2 ^ 63 - 1)
  else 0

/-- `strings.Split` on a single separator character. -/
def splitChar (sep : Char) : Str → List Str
  | [] => [[]]
  | c :: cs =>
    let r := splitChar sep cs
    if c = sep then [] :: r
    else
      match r with
      | h :: t => (c :: h) :: t
      | [] => [[c]]

/-- One attempt of `gpt-5[.-]([0-9]+(?:\.[0-9]+)?)` at the head of `l`,
returning the capture group. -/
def versionCaptureAt (l : Str) : Option Str :=
  if ("gpt-5".toList).isPrefixOf l then
    match l.drop 5 with
    | [] => none
    | sep :: rest2 =>
      if sep = '.' || sep = '-' then
        let ds1 := rest2.takeWhile isDigitChar
        if ds1.isEmpty then none
        else
          match rest2.drop ds1.length with
          | '.' :: rest4 =>
            let ds2 := rest4.takeWhile isDigitChar
            if ds2.isEmpty then some ds1 else some (ds1 ++ '.' :: ds2)
          | _ => some ds1
      else none
  else none

/-- Leftmost match of the version pattern. -/
def findVersionCapture : Str → Option Str
  | [] => none
  | c :: cs =>
    match versionCaptureAt (c :: cs) with
    | some cap => some cap
    | none => findVersionCapture cs

/-- `versionTuple` (lines 105-118). -/
def versionTuple (name : Str) : List Int :=
  match findVersionCapture name with
  | none => [0]
  | some cap =>
    (splitChar '.' (cap.map fun c => if c = '-' then '.' else c)).map goAtoi

/-- Go `strings.Contains(l, sub)`: `sub` occurs somewhere in `l`. -/
def containsStr : Str → Str → Bool
  | [], sub => sub.isEmpty
  | c :: cs, sub => sub.isPrefixOf (c :: cs) || containsStr cs sub

/-- The category rank from `modelSortKey` (lines 125-132). -/
def categoryOf (name : Str) : Nat :=
  if containsStr name ("codex-max".toList) then 0
  else if containsStr name ("codex".toList) && !containsStr name ("mini".toList) then 1
  else if containsStr name ("codex-mini".toList) then 3
  else 2

/-- `modelSortKey` (lines 120-134): negated version tuple, category, name. -/
def modelSortKey (name : Str) : List Int × Nat × Str :=
  ((versionTuple name).map (fun v => -v), categoryOf name, name)

/-- `compareTuples` (lines 136-156).  The index loop exits with `-1`/`1` as
soon as one side is exhausted or two components differ, so it is the usual
structural lexicographic comparison. -/
def compareTuples : List Int → List Int → Int
  | [], [] => 0
  | [], _ :: _ => -1
  | _ :: _, [] => 1
  | x :: xs, y :: ys =>
    if x < y then -1 else if y < x then 1 else compareTuples xs ys

/-- Byte-lexicographic string comparison (Go `<` on strings; UTF-8 byte order
agrees with code-point order). -/
def strCmp : Str → Str → Int
  | [], [] => 0
  | [], _ :: _ => -1
  | _ :: _, [] => 1
  | x :: xs, y :: ys =>
    if x.toNat < y.toNat then -1 else if y.toNat < x.toNat then 1 else strCmp xs ys

/-- The `sort.Slice` comparator in `orderModels` (lines 169-179). -/
def modelLess (a b : Str) : Bool :=
  let cv := compareTuples (modelSortKey a).1 (modelSortKey b).1
  if cv ≠ 0 then decide (cv < 0)
  else if (modelSortKey a).2.1 ≠ (modelSortKey b).2.1 then
    decide ((modelSortKey a).2.1 < (modelSortKey b).2.1)
  else decide (strCmp a b < 0)

/-- `a` may be placed before `b`: the non-strict order induced by
`modelLess`. -/
def modelLeB (a b : Str) : Bool := !modelLess b a

def orderedInsert (le : α → α → Bool) (x : α) : List α → List α
  | [] => [x]
  | y :: ys => if le x y then x :: y :: ys else y :: orderedInsert le x ys

/-- Insertion sort.  `modelLess` is a strict total order on distinct names
(final tie-break by name), so every correct sort — in particular Go's
`sort.Slice` — produces this same output on duplicate-free input. -/
def insertionSortBy (le : α → α → Bool) : List α → List α
  | [] => []
  | x :: xs => orderedInsert le x (insertionSortBy le xs)

/-- A Go `map`-backed set, materialised as a duplicate-free list keeping first
insertions (downstream use is order-insensitive). -/
def dedupAux [DecidableEq α] (seen : List α) : List α → List α
  | [] => []
  | x :: xs => if x ∈ seen then dedupAux seen xs else x :: dedupAux (x :: seen) xs

def dedupFirst [DecidableEq α] (l : List α) : List α := dedupAux [] l

/-- The `normalized` set built in `orderModels` (lines 159-164). -/
def normalizedSet (models : List Str) : List Str :=
  dedupFirst ((models.filter fun m => !(stripQuotes m).isEmpty).map normalizeName)

/-- The `ordered` list of `orderModels` before quoting (lines 165-179). -/
def orderedNames (models : List Str) : List Str :=
  insertionSortBy modelLeB (normalizedSet models)

/-- `orderModels` (lines 158-185). -/
def orderModels (models : List Str) : List Str :=
  (orderedNames models).map quote


/-- One attempt of `gpt-5[\w\.-]*` at the head of `l`: the literal prefix and
then the greedy run of model characters. -/
def matchGpt5At (l : Str) : Option (Str × Str) :=
  if ("gpt-5".toList).isPrefixOf l then
    let run := (l.drop 5).takeWhile isModelChar
    some ("gpt-5".toList ++ run, l.drop (5 + run.length))
  else none

/-- One attempt of `gpt-[0-9](?:\.[0-9]+)?-codex-max` at the head of `l`.
The optional fraction group is tried greedily first; shrinking the digit run
can never help (the next character would still be a digit), so the only
backtracking is dropping the whole group. -/
def matchCodexMaxAt (l : Str) : Option (Str × Str) :=
  if ("gpt-".toList).isPrefixOf l then
    match l.drop 4 with
    | [] => none
    | d :: rest =>
      if isDigitChar d then
        let noFrac : Option (Str × Str) :=
          if ("-codex-max".toList).isPrefixOf rest then
            some ("gpt-".toList ++ d :: "-codex-max".toList, rest.drop 10)
          else none
        match rest with
        | '.' :: r2 =>
          let ds := r2.takeWhile isDigitChar
          if ds.isEmpty then noFrac
          else if ("-codex-max".toList).isPrefixOf (r2.drop ds.length) then
            some ("gpt-".toList ++ d :: '.' :: (ds ++ "-codex-max".toList),
              (r2.drop ds.length).drop 10)
          else noFrac
        | _ => noFrac
      else none
  else none

/-- `FindAllString`: leftmost matches, continuing after each match.  All the
matchers used here consume at least one character, so fuel equal to the text
length never runs out. -/
def findAllWith (m : Str → Option (Str × Str)) : Nat → Str → List Str
  | 0, _ => []
  | _, [] => []
  | fuel + 1, c :: cs =>
    match m (c :: cs) with
    | some (mt, rest) => mt :: findAllWith m fuel rest
    | none => findAllWith m fuel cs

/-- Byte-lexicographic `≤` (Go `sort.Strings` order). -/
def strLeB (a b : Str) : Bool := !decide (strCmp b a < 0)

/-- `findGpt5Models` (lines 67-80): all matches, deduplicated, sorted
ascending. -/
def findGpt5Models (text : Str) : List Str :=
  insertionSortBy strLeB (dedupFirst (findAllWith matchGpt5At text.length text))

/-- `versionParts` (lines 496-504). -/
def versionParts (version : Str) : List Int :=
  (splitChar '.' ((splitChar '-' version).getD 1 [])).map goAtoi

/-- The `sort.Slice` comparator of `findCodexMaxVersions` (lines 43-63):
zero-padded lexicographic comparison, descending. -/
def codexVerLess (a b : Str) : Bool :=
  go (versionParts a) (versionParts b)
where
  go : List Int → List Int → Bool
    | [], [] => false
    | [], y :: ys => if 0 ≠ y then decide (0 > y) else go [] ys
    | x :: xs, [] => if x ≠ 0 then decide (x > 0) else go xs []
    | x :: xs, y :: ys => if x ≠ y then decide (x > y) else go xs ys

def codexVerLeB (a b : Str) : Bool := !codexVerLess b a

/-- `findCodexMaxVersions` (lines 32-65).  Ties under the comparator leave
`sort.Slice` free to pick any order; the output only ever feeds a set, so the
deterministic insertion-sort choice is immaterial. -/
def findCodexMaxVersions (text : Str) : List Str :=
  insertionSortBy codexVerLeB (dedupFirst (findAllWith matchCodexMaxAt text.length text))

/-- One attempt of `DEFAULT_MODEL_ORDER=\[([^\]]+)\]` at the head of `l`,
returning the capture. -/
def matchDefaultOrderAt (l : Str) : Option Str :=
  let lit := "DEFAULT_MODEL_ORDER=[".toList
  if lit.isPrefixOf l then
    let after := l.drop lit.length
    let contents := after.takeWhile (· != ']')
    if contents.isEmpty then none
    else
      match after.drop contents.length with
      | ']' :: _ => some contents
      | _ => none
  else none

def findDefaultOrderCapture : Str → Option Str
  | [] => none
  | c :: cs =>
    match matchDefaultOrderAt (c :: cs) with
    | some r => some r
    | none => findDefaultOrderCapture cs

/-- `parseDefaultOrder` (lines 15-30). -/
def parseDefaultOrder (text : Str) : List Str :=
  match findDefaultOrderCapture text with
  | none => []
  | some inner => ((splitChar ',' inner).map trimSpace).filter (fun v => !v.isEmpty)

/-- The `candidates` set of `buildApikeyList` (lines 195-204): gpt-5 models,
then the quote-stripped default order, then the codex-max versions. -/
def rawCandidates (text : Str) : List Str :=
  dedupFirst
    (findGpt5Models text ++ (parseDefaultOrder text).map stripQuotes ++
      findCodexMaxVersions text)

/-- Lines 205-207: seed the default identifier when extraction found
nothing. -/
def seededCandidates (text : Str) : List Str :=
  if (rawCandidates text).isEmpty then ["gpt-5.1-codex-max".toList]
  else rawCandidates text

/-- Lines 208-216: drop candidates whose lower-cased form contains "mini". -/
def miniFiltered (cands : List Str) (includeMini : Bool) : List Str :=
  if includeMini then cands
  else cands.filter fun m => !containsStr (m.map Char.toLower) ("mini".toList)

/-- `buildApikeyList` (lines 187-223). -/
def buildApikeyList (text : Str) (includeMini : Bool) : List Str :=
  orderModels (miniFiltered (seededCandidates text) includeMini)

/-- One attempt of `<field>:\s*\[[^\]]*\]` at the head of `l`.  The greedy
`\s*` run cannot end on `[`, and the bracket contents cannot cross a `]`, so
no backtracking arises. -/
def matchFieldArrayAt (field l : Str) : Option (Str × Str) :=
  if field.isPrefixOf l then
    match l.drop field.length with
    | c0 :: l2 =>
      if c0 = ':' then
        let ws := l2.takeWhile isRegexSpace
        match l2.drop ws.length with
        | c1 :: l4 =>
          if c1 = '[' then
            let inner := l4.takeWhile (· != ']')
            match l4.drop inner.length with
            | c2 :: rest =>
              if c2 = ']' then
                some (field ++ ':' :: (ws ++ '[' :: (inner ++ [']'])), rest)
              else none
            | [] => none
          else none
        | [] => none
      else none
    | [] => none
  else none

/-- One attempt of `<field>:[A-Z][A-Z0-9_]*` at the head of `l`. -/
def matchFieldVarAt (field l : Str) : Option (Str × Str) :=
  if field.isPrefixOf l then
    match l.drop field.length with
    | c0 :: l1 =>
      if c0 = ':' then
        match l1 with
        | c :: l2 =>
          if isUpperAZ c then
            let run := l2.takeWhile isUpperNum
            some (field ++ ':' :: c :: run, l2.drop run.length)
          else none
        | [] => none
      else none
    | [] => none
  else none

/-- `MatchString`: does the pattern match anywhere? -/
def hasMatchWith (m : Str → Option (Str × Str)) : Nat → Str → Bool
  | 0, _ => false
  | _, [] => false
  | fuel + 1, c :: cs =>
    match m (c :: cs) with
    | some _ => true
    | none => hasMatchWith m fuel cs

def isNameChar (c : Char) : Bool := isWordChar c

/-- `$`-reference expansion used by `ReplaceAllString`.  The two patterns it
is used with have no capture groups, so `$0` (and only `$0`) expands to the
whole match and every other valid reference expands to nothing; an invalid
reference leaves the `$` literal.  Fuel is the template length. -/
def expandRepl (matchText : Str) : Nat → Str → Str
  | 0, l => l
  | _, [] => []
  | fuel + 1, c :: cs =>
    if c = '$' then
      match cs with
      | [] => ['$']
      | '{' :: r2 =>
        let name := r2.takeWhile isNameChar
        if name.isEmpty then '$' :: expandRepl matchText fuel cs
        else
          match r2.drop name.length with
          | '}' :: r3 =>
            (if name = ['0'] then matchText else []) ++ expandRepl matchText fuel r3
          | _ => '$' :: expandRepl matchText fuel cs
      | d :: _ =>
        if isNameChar d then
          let name := cs.takeWhile isNameChar
          (if name = ['0'] then matchText else []) ++
            expandRepl matchText fuel (cs.drop name.length)
        else '$' :: expandRepl matchText fuel cs
    else c :: expandRepl matchText fuel cs

/-- `ReplaceAllString`: rewrite every leftmost non-overlapping match. -/
def replaceAllWith (m : Str → Option (Str × Str)) (repl : Str) : Nat → Str → Str
  | 0, l => l
  | _, [] => []
  | fuel + 1, c :: cs =>
    match m (c :: cs) with
    | some (mt, rest) => expandRepl mt repl.length repl ++ replaceAllWith m repl fuel rest
    | none => c :: replaceAllWith m repl fuel cs

/-- `strings.Join` with a one-character separator. -/
def joinSep (sep : Char) : List Str → Str
  | [] => []
  | [x] => x
  | x :: xs => x ++ sep :: joinSep sep xs

/-- The `newArray` text of `replaceAuthMethodArray` (line 226). -/
def newArrayOf (items : List Str) : Str := '[' :: (joinSep ',' items ++ [']'])

/-- The `newField` text of `replaceAuthMethodArray` (line 227). -/
def newFieldOf (field : Str) (items : List Str) : Str :=
  field ++ ':' :: newArrayOf items

/-- `replaceAuthMethodArray` (lines 225-240).  The call sites pass the literal
field names "apikey" and "chatgpt", which contain no regex metacharacters, so
the compiled patterns match the field text literally. -/
def replaceAuthMethodArray (text field : Str) (newItems : List Str) : Str × Bool :=
  let newField := newFieldOf field newItems
  if hasMatchWith (matchFieldArrayAt field) text.length text then
    (replaceAllWith (matchFieldArrayAt field) newField text.length text, true)
  else if hasMatchWith (matchFieldVarAt field) text.length text then
    (replaceAllWith (matchFieldVarAt field) newField text.length text, true)
  else (text, false)

/-- `ensureApikey` (lines 242-245). -/
def ensureApikey (text : Str) (includeMini : Bool) : Str × Bool :=
  replaceAuthMethodArray text ("apikey".toList) (buildApikeyList text includeMini)

/-- `ensureChatgpt` (lines 247-250). -/
def ensureChatgpt (text : Str) (includeMini : Bool) : Str × Bool :=
  replaceAuthMethodArray text ("chatgpt".toList) (buildApikeyList text includeMini)

/-- The literal `CHAT_GPT_AUTH_ONLY_MODELS=new Set([`. -/
def authLit : Str := "CHAT_GPT_AUTH_ONLY_MODELS=new Set([".toList

/-- The replacement text of `removeAuthOnly` (line 262). -/
def authRepl : Str := "CHAT_GPT_AUTH_ONLY_MODELS=new Set([])".toList

/-- One attempt of `CHAT_GPT_AUTH_ONLY_MODELS=new Set\(\[([^\]]*?)\]\)` at the
head of `l`, returning the capture and the text after the match.  The lazy
contents cannot cross a `]`, so they end at the first `]`, which must be
followed by `)`. -/
def matchAuthAt (l : Str) : Option (Str × Str) :=
  if authLit.isPrefixOf l then
    let after := l.drop authLit.length
    let contents := after.takeWhile (· != ']')
    match after.drop contents.length with
    | c1 :: c2 :: rest =>
      if c1 = ']' ∧ c2 = ')' then some (contents, rest) else none
    | _ => none
  else none

/-- Leftmost match of the auth pattern, split as
(prefix, capture, text after the match). -/
def findAuthSplit : Str → Option (Str × Str × Str)
  | [] => none
  | c :: cs =>
    match matchAuthAt (c :: cs) with
    | some (contents, rest) => some ([], contents, rest)
    | none =>
      match findAuthSplit cs with
      | some (p, contents, rest) => some (c :: p, contents, rest)
      | none => none

/-- `removeAuthOnly` (lines 252-264): replace the leftmost match when its
captured contents are non-blank. -/
def removeAuthOnly (text : Str) : Str × Bool :=
  match findAuthSplit text with
  | none => (text, false)
  | some (p, contents, rest) =>
    if (trimSpace contents).isEmpty then (text, false)
    else (p ++ authRepl ++ rest, true)

/-- The pure text transformation of `patchFile` (lines 278-305): the three
steps in order, with their change flags.  The file is (re)written iff some
flag is set; otherwise "already compliant" is reported. -/
def patchTextOnce (text : Str) (includeMini : Bool) : Str × Bool × Bool × Bool :=
  let a := ensureApikey text includeMini
  let b := ensureChatgpt a.1 includeMini
  let c := removeAuthOnly b.1
  (c.1, a.2, b.2, c.2)


/-! ### Order-theoretic facts about the model comparator -/

theorem charEq_of_toNat_eq {x y : Char} (h : x.toNat = y.toNat) : x = y :=
  Char.eq_of_val_eq (UInt32.eq_of_val_eq (Fin.eq_of_val_eq h))

theorem strCmp_cons_lt {x y : Char} {xs ys : Str} :
    strCmp (x :: xs) (y :: ys) < 0 ↔
      x.toNat < y.toNat ∨ (x = y ∧ strCmp xs ys < 0) := by
  simp only [strCmp]
  rcases Nat.lt_trichotomy x.toNat y.toNat with h | h | h
  · rw [if_pos h]
    constructor
    · intro
      exact Or.inl h
    · intro
      omega
  · have hxy := charEq_of_toNat_eq h
    subst hxy
    rw [if_neg (by omega), if_neg (by omega)]
    constructor
    · intro hh
      exact Or.inr ⟨rfl, hh⟩
    · rintro (hh | ⟨-, hh⟩)
      · omega
      · exact hh
  · rw [if_neg (by omega), if_pos h]
    constructor
    · intro
      omega
    · rintro (hh | ⟨rfl, -⟩) <;> omega

theorem strCmp_cons_eq_zero {x y : Char} {xs ys : Str} :
    strCmp (x :: xs) (y :: ys) = 0 ↔ x = y ∧ strCmp xs ys = 0 := by
  simp only [strCmp]
  rcases Nat.lt_trichotomy x.toNat y.toNat with h | h | h
  · rw [if_pos h]
    constructor
    · intro
      omega
    · rintro ⟨rfl, -⟩
      omega
  · have hxy := charEq_of_toNat_eq h
    subst hxy
    rw [if_neg (by omega), if_neg (by omega)]
    simp
  · rw [if_neg (by omega), if_pos h]
    constructor
    · intro
      omega
    · rintro ⟨rfl, -⟩
      omega

theorem strCmp_eq_zero_iff : ∀ {a b : Str}, strCmp a b = 0 ↔ a = b
  | [], [] => by simp [strCmp]
  | [], _ :: _ => iff_of_false (by norm_num [strCmp]) (by simp)
  | _ :: _, [] => iff_of_false (by norm_num [strCmp]) (by simp)
  | x :: xs, y :: ys => by
    rw [strCmp_cons_eq_zero, @strCmp_eq_zero_iff xs ys, List.cons_eq_cons]

theorem strCmp_swap : ∀ (a b : Str), strCmp a b = -strCmp b a
  | [], [] => by norm_num [strCmp]
  | [], _ :: _ => by norm_num [strCmp]
  | _ :: _, [] => by norm_num [strCmp]
  | x :: xs, y :: ys => by
    rcases Nat.lt_trichotomy x.toNat y.toNat with h | h | h
    · have l1 : strCmp (x :: xs) (y :: ys) = -1 := by
        simp only [strCmp]
        rw [if_pos h]
      have l2 : strCmp (y :: ys) (x :: xs) = 1 := by
        simp only [strCmp]
        rw [if_neg (by omega), if_pos h]
      rw [l1, l2]
    · have hxy := charEq_of_toNat_eq h
      subst hxy
      have l1 : strCmp (x :: xs) (x :: ys) = strCmp xs ys := by
        simp only [strCmp]
        rw [if_neg (by omega), if_neg (by omega)]
      have l2 : strCmp (x :: ys) (x :: xs) = strCmp ys xs := by
        simp only [strCmp]
        rw [if_neg (by omega), if_neg (by omega)]
      rw [l1, l2]
      exact strCmp_swap xs ys
    · have l1 : strCmp (x :: xs) (y :: ys) = 1 := by
        simp only [strCmp]
        rw [if_neg (by omega), if_pos h]
      have l2 : strCmp (y :: ys) (x :: xs) = -1 := by
        simp only [strCmp]
        rw [if_pos h]
      rw [l1, l2]
      norm_num

theorem strCmp_lt_trans :
    ∀ {a b c : Str}, strCmp a b < 0 → strCmp b c < 0 → strCmp a c < 0
  | [], [], _, hab, _ => by norm_num [strCmp] at hab
  | [], _ :: _, [], _, hbc => by norm_num [strCmp] at hbc
  | [], _ :: _, _ :: _, _, _ => by norm_num [strCmp]
  | _ :: _, [], _, hab, _ => by norm_num [strCmp] at hab
  | _ :: _, _ :: _, [], _, hbc => by norm_num [strCmp] at hbc
  | x :: xs, y :: ys, z :: zs, hab, hbc => by
    rcases strCmp_cons_lt.mp hab with h1 | ⟨rfl, h1⟩ <;>
      rcases strCmp_cons_lt.mp hbc with h2 | ⟨rfl, h2⟩
    · exact strCmp_cons_lt.mpr (Or.inl (h1.trans h2))
    · exact strCmp_cons_lt.mpr (Or.inl h1)
    · exact strCmp_cons_lt.mpr (Or.inl h2)
    · exact strCmp_cons_lt.mpr (Or.inr ⟨rfl, strCmp_lt_trans h1 h2⟩)

theorem compareTuples_cons_lt {x y : Int} {xs ys : List Int} :
    compareTuples (x :: xs) (y :: ys) < 0 ↔
      x < y ∨ (x = y ∧ compareTuples xs ys < 0) := by
  simp only [compareTuples]
  rcases lt_trichotomy x y with h | h | h
  · rw [if_pos h]
    constructor
    · intro
      exact Or.inl h
    · intro
      omega
  · subst h
    rw [if_neg (by omega), if_neg (by omega)]
    constructor
    · intro hh
      exact Or.inr ⟨rfl, hh⟩
    · rintro (hh | ⟨-, hh⟩)
      · omega
      · exact hh
  · rw [if_neg (by omega), if_pos h]
    constructor
    · intro
      omega
    · rintro (hh | ⟨rfl, -⟩) <;> omega

theorem compareTuples_cons_eq_zero {x y : Int} {xs ys : List Int} :
    compareTuples (x :: xs) (y :: ys) = 0 ↔ x = y ∧ compareTuples xs ys = 0 := by
  simp only [compareTuples]
  rcases lt_trichotomy x y with h | h | h
  · rw [if_pos h]
    constructor
    · intro
      omega
    · rintro ⟨rfl, -⟩
      omega
  · subst h
    rw [if_neg (by omega), if_neg (by omega)]
    simp
  · rw [if_neg (by omega), if_pos h]
    constructor
    · intro
      omega
    · rintro ⟨rfl, -⟩
      omega

theorem compareTuples_eq_zero_iff : ∀ {a b : List Int}, compareTuples a b = 0 ↔ a = b
  | [], [] => by simp [compareTuples]
  | [], _ :: _ => iff_of_false (by norm_num [compareTuples]) (by simp)
  | _ :: _, [] => iff_of_false (by norm_num [compareTuples]) (by simp)
  | x :: xs, y :: ys => by
    rw [compareTuples_cons_eq_zero, @compareTuples_eq_zero_iff xs ys, List.cons_eq_cons]

theorem compareTuples_swap : ∀ (a b : List Int), compareTuples a b = -compareTuples b a
  | [], [] => by norm_num [compareTuples]
  | [], _ :: _ => by norm_num [compareTuples]
  | _ :: _, [] => by norm_num [compareTuples]
  | x :: xs, y :: ys => by
    rcases lt_trichotomy x y with h | h | h
    · have l1 : compareTuples (x :: xs) (y :: ys) = -1 := by
        simp only [compareTuples]
        rw [if_pos h]
      have l2 : compareTuples (y :: ys) (x :: xs) = 1 := by
        simp only [compareTuples]
        rw [if_neg (by omega), if_pos h]
      rw [l1, l2]
    · subst h
      have l1 : compareTuples (x :: xs) (x :: ys) = compareTuples xs ys := by
        simp only [compareTuples]
        rw [if_neg (by omega), if_neg (by omega)]
      have l2 : compareTuples (x :: ys) (x :: xs) = compareTuples ys xs := by
        simp only [compareTuples]
        rw [if_neg (by omega), if_neg (by omega)]
      rw [l1, l2]
      exact compareTuples_swap xs ys
    · have l1 : compareTuples (x :: xs) (y :: ys) = 1 := by
        simp only [compareTuples]
        rw [if_neg (by omega), if_pos h]
      have l2 : compareTuples (y :: ys) (x :: xs) = -1 := by
        simp only [compareTuples]
        rw [if_pos h]
      rw [l1, l2]
      norm_num

theorem compareTuples_lt_trans :
    ∀ {a b c : List Int}, compareTuples a b < 0 → compareTuples b c < 0 →
      compareTuples a c < 0
  | [], [], _, hab, _ => by norm_num [compareTuples] at hab
  | [], _ :: _, [], _, hbc => by norm_num [compareTuples] at hbc
  | [], _ :: _, _ :: _, _, _ => by norm_num [compareTuples]
  | _ :: _, [], _, hab, _ => by norm_num [compareTuples] at hab
  | _ :: _, _ :: _, [], _, hbc => by norm_num [compareTuples] at hbc
  | x :: xs, y :: ys, z :: zs, hab, hbc => by
    rcases compareTuples_cons_lt.mp hab with h1 | ⟨rfl, h1⟩ <;>
      rcases compareTuples_cons_lt.mp hbc with h2 | ⟨rfl, h2⟩
    · exact compareTuples_cons_lt.mpr (Or.inl (h1.trans h2))
    · exact compareTuples_cons_lt.mpr (Or.inl h1)
    · exact compareTuples_cons_lt.mpr (Or.inl h2)
    · exact compareTuples_cons_lt.mpr (Or.inr ⟨rfl, compareTuples_lt_trans h1 h2⟩)

/-- Negated version tuple, the first sort-key component. -/
def negVT (a : Str) : List Int := (versionTuple a).map (fun v => -v)

theorem modelLess_iff {a b : Str} :
    modelLess a b = true ↔
      compareTuples (negVT a) (negVT b) < 0 ∨
        (negVT a = negVT b ∧
          (categoryOf a < categoryOf b ∨
            (categoryOf a = categoryOf b ∧ strCmp a b < 0))) := by
  simp only [modelLess, modelSortKey, negVT]
  split
  · rename_i h
    constructor
    · intro hlt
      exact Or.inl (by simpa using hlt)
    · intro hor
      rcases hor with h1 | ⟨h1, -⟩
      · simpa using h1
      · exact absurd (compareTuples_eq_zero_iff.mpr h1) h
  · rename_i h
    push_neg at h
    have hv : ((versionTuple a).map fun v => -v) = (versionTuple b).map fun v => -v :=
      compareTuples_eq_zero_iff.mp h
    split
    · rename_i hc
      constructor
      · intro hlt
        exact Or.inr ⟨hv, Or.inl (by simpa using hlt)⟩
      · intro hor
        rcases hor with h1 | ⟨-, h2 | ⟨h2, -⟩⟩
        · rw [compareTuples_eq_zero_iff.mpr hv] at h1
          omega
        · simpa using h2
        · exact absurd h2 hc
    · rename_i hc
      push_neg at hc
      constructor
      · intro hlt
        exact Or.inr ⟨hv, Or.inr ⟨hc, by simpa using hlt⟩⟩
      · intro hor
        rcases hor with h1 | ⟨-, h2 | ⟨-, h2⟩⟩
        · rw [compareTuples_eq_zero_iff.mpr hv] at h1
          omega
        · omega
        · simpa using h2

theorem modelLess_asymm {a b : Str} (h : modelLess a b = true) :
    modelLess b a = false := by
  cases hba : modelLess b a
  · rfl
  · exfalso
    rcases modelLess_iff.mp h with h1 | ⟨h1, h2 | ⟨h2, h3⟩⟩ <;>
      rcases modelLess_iff.mp hba with g1 | ⟨g1, g2 | ⟨g2, g3⟩⟩
    · rw [compareTuples_swap] at g1
      omega
    · rw [compareTuples_eq_zero_iff.mpr g1.symm] at h1
      omega
    · rw [compareTuples_eq_zero_iff.mpr g1.symm] at h1
      omega
    · rw [compareTuples_eq_zero_iff.mpr h1.symm] at g1
      omega
    · omega
    · omega
    · rw [compareTuples_eq_zero_iff.mpr h1.symm] at g1
      omega
    · omega
    · rw [strCmp_swap] at g3
      omega

theorem modelLess_total {a b : Str} (hne : a ≠ b) :
    modelLess a b = true ∨ modelLess b a = true := by
  rcases lt_trichotomy (compareTuples (negVT a) (negVT b)) 0 with h | h | h
  · exact Or.inl (modelLess_iff.mpr (Or.inl h))
  · have hv : negVT a = negVT b := compareTuples_eq_zero_iff.mp h
    rcases Nat.lt_trichotomy (categoryOf a) (categoryOf b) with hc | hc | hc
    · exact Or.inl (modelLess_iff.mpr (Or.inr ⟨hv, Or.inl hc⟩))
    · rcases lt_trichotomy (strCmp a b) 0 with hs | hs | hs
      · exact Or.inl (modelLess_iff.mpr (Or.inr ⟨hv, Or.inr ⟨hc, hs⟩⟩))
      · exact absurd (strCmp_eq_zero_iff.mp hs) hne
      · refine Or.inr (modelLess_iff.mpr (Or.inr ⟨hv.symm, Or.inr ⟨hc.symm, ?_⟩⟩))
        rw [strCmp_swap]
        omega
    · exact Or.inr (modelLess_iff.mpr (Or.inr ⟨hv.symm, Or.inl hc⟩))
  · refine Or.inr (modelLess_iff.mpr (Or.inl ?_))
    rw [compareTuples_swap]
    omega

theorem modelLess_trans {a b c : Str} (hab : modelLess a b = true)
    (hbc : modelLess b c = true) : modelLess a c = true := by
  rcases modelLess_iff.mp hab with h1 | ⟨h1, h2 | ⟨h2, h3⟩⟩ <;>
    rcases modelLess_iff.mp hbc with g1 | ⟨g1, g2 | ⟨g2, g3⟩⟩
  · exact modelLess_iff.mpr (Or.inl (compareTuples_lt_trans h1 g1))
  · exact modelLess_iff.mpr (Or.inl (g1 ▸ h1))
  · exact modelLess_iff.mpr (Or.inl (g1 ▸ h1))
  · exact modelLess_iff.mpr (Or.inl (h1 ▸ g1))
  · exact modelLess_iff.mpr (Or.inr ⟨h1.trans g1, Or.inl (h2.trans g2)⟩)
  · exact modelLess_iff.mpr (Or.inr ⟨h1.trans g1, Or.inl (g2 ▸ h2)⟩)
  · exact modelLess_iff.mpr (Or.inl (h1 ▸ g1))
  · exact modelLess_iff.mpr (Or.inr ⟨h1.trans g1, Or.inl (h2 ▸ g2)⟩)
  · exact modelLess_iff.mpr
      (Or.inr ⟨h1.trans g1, Or.inr ⟨h2.trans g2, strCmp_lt_trans h3 g3⟩⟩)

theorem modelLeB_total (a b : Str) : modelLeB a b = true ∨ modelLeB b a = true := by
  cases hba : modelLess b a
  · exact Or.inl (by simp [modelLeB, hba])
  · exact Or.inr (by simp [modelLeB, modelLess_asymm hba])

theorem modelLeB_trans {a b c : Str} (h1 : modelLeB a b = true)
    (h2 : modelLeB b c = true) : modelLeB a c = true := by
  simp only [modelLeB, Bool.not_eq_true'] at h1 h2 ⊢
  cases hca : modelLess c a
  · rfl
  · exfalso
    by_cases hcb : c = b
    · subst hcb
      rw [hca] at h1
      cases h1
    · rcases modelLess_total hcb with h | h
      · rw [h] at h2
        cases h2
      · rw [modelLess_trans h hca] at h1
        cases h1

/-! ### Insertion sort is a sorted permutation -/

theorem mem_orderedInsert (le : α → α → Bool) (x y : α) :
    ∀ l : List α, y ∈ orderedInsert le x l ↔ y = x ∨ y ∈ l
  | [] => by simp [orderedInsert]
  | z :: zs => by
    simp only [orderedInsert]
    split
    · simp [List.mem_cons]
    · simp only [List.mem_cons, mem_orderedInsert le x y zs]
      tauto

theorem perm_orderedInsert (le : α → α → Bool) (x : α) :
    ∀ l : List α, List.Perm (orderedInsert le x l) (x :: l)
  | [] => by simp [orderedInsert]
  | z :: zs => by
    simp only [orderedInsert]
    split
    · exact List.Perm.refl _
    · exact ((perm_orderedInsert le x zs).cons z).trans (List.Perm.swap x z zs)

theorem perm_insertionSortBy (le : α → α → Bool) :
    ∀ l : List α, List.Perm (insertionSortBy le l) l
  | [] => by simp [insertionSortBy]
  | x :: xs =>
    (perm_orderedInsert le x (insertionSortBy le xs)).trans
      ((perm_insertionSortBy le xs).cons x)

theorem pairwise_orderedInsert (le : α → α → Bool)
    (htot : ∀ a b, le a b = true ∨ le b a = true)
    (htrans : ∀ a b c, le a b = true → le b c = true → le a c = true) (x : α) :
    ∀ l : List α, l.Pairwise (fun a b => le a b = true) →
      (orderedInsert le x l).Pairwise (fun a b => le a b = true)
  | [], _ => by simp [orderedInsert]
  | z :: zs, h => by
    simp only [orderedInsert]
    rcases List.pairwise_cons.mp h with ⟨hz, hzs⟩
    split
    · rename_i hxz
      refine List.pairwise_cons.mpr ⟨?_, h⟩
      intro b hb
      rcases List.mem_cons.mp hb with rfl | hb
      · exact hxz
      · exact htrans x z b hxz (hz b hb)
    · rename_i hxz
      refine List.pairwise_cons.mpr ⟨?_, pairwise_orderedInsert le htot htrans x zs hzs⟩
      intro b hb
      rcases (mem_orderedInsert le x b zs).mp hb with rfl | hb
      · rcases htot z b with h' | h'
        · exact h'
        · rw [h'] at hxz
          cases hxz rfl
      · exact hz b hb

theorem pairwise_insertionSortBy (le : α → α → Bool)
    (htot : ∀ a b, le a b = true ∨ le b a = true)
    (htrans : ∀ a b c, le a b = true → le b c = true → le a c = true) :
    ∀ l : List α, (insertionSortBy le l).Pairwise (fun a b => le a b = true)
  | [] => by simp [insertionSortBy]
  | x :: xs =>
    pairwise_orderedInsert le htot htrans x _
      (pairwise_insertionSortBy le htot htrans xs)

theorem mem_dedupAux [DecidableEq α] (y : α) :
    ∀ (seen l : List α), y ∈ dedupAux seen l ↔ y ∈ l ∧ y ∉ seen
  | _, [] => by simp [dedupAux]
  | seen, x :: xs => by
    simp only [dedupAux]
    split
    · rename_i hx
      rw [mem_dedupAux y seen xs]
      simp only [List.mem_cons]
      constructor
      · rintro ⟨h1, h2⟩
        exact ⟨Or.inr h1, h2⟩
      · rintro ⟨h1 | h1, h2⟩
        · subst h1
          exact absurd hx h2
        · exact ⟨h1, h2⟩
    · rename_i hx
      simp only [List.mem_cons, mem_dedupAux y (x :: seen) xs, List.mem_cons]
      constructor
      · rintro (rfl | ⟨h1, h2⟩)
        · exact ⟨Or.inl rfl, hx⟩
        · exact ⟨Or.inr h1, fun hs => h2 (Or.inr hs)⟩
      · rintro ⟨rfl | h1, h2⟩
        · exact Or.inl rfl
        · by_cases hyx : y = x
          · exact Or.inl hyx
          · refine Or.inr ⟨h1, ?_⟩
            rintro (h | h)
            · exact hyx h
            · exact h2 h

theorem nodup_dedupAux [DecidableEq α] :
    ∀ (seen l : List α), (dedupAux seen l).Nodup
  | _, [] => by simp [dedupAux]
  | seen, x :: xs => by
    simp only [dedupAux]
    split
    · exact nodup_dedupAux seen xs
    · refine List.nodup_cons.mpr ⟨?_, nodup_dedupAux (x :: seen) xs⟩
      intro hmem
      exact ((mem_dedupAux x (x :: seen) xs).mp hmem).2 (List.mem_cons_self x seen)

theorem nodup_dedupFirst [DecidableEq α] (l : List α) : (dedupFirst l).Nodup :=
  nodup_dedupAux [] l

theorem nodup_orderedNames (ms : List Str) : (orderedNames ms).Nodup :=
  ((perm_insertionSortBy modelLeB (normalizedSet ms)).nodup_iff).mpr
    (nodup_dedupFirst _)

theorem pairwise_orderedNames (ms : List Str) :
    (orderedNames ms).Pairwise (fun a b => modelLeB a b = true) :=
  pairwise_insertionSortBy modelLeB modelLeB_total
    (fun _ _ _ => modelLeB_trans) (normalizedSet ms)


/-! ### Normalization: structure lemmas -/

theorem dropWhile_cons_of_neg {p : Char → Bool} {c : Char} {cs : Str} (h : p c = false) :
    (c :: cs).dropWhile p = c :: cs := by
  simp [List.dropWhile_cons, h]

theorem trimSpace_eq_self {l : Str}
    (h1 : ∀ c, l.head? = some c → isGoSpace c = false)
    (h2 : ∀ c, l.getLast? = some c → isGoSpace c = false) :
    trimSpace l = l := by
  cases l with
  | nil => rfl
  | cons c cs =>
    unfold trimSpace
    rw [dropWhile_cons_of_neg (h1 c rfl)]
    cases hrev : (c :: cs).reverse with
    | nil => exact absurd hrev (by simp)
    | cons d ds =>
      have hd : (c :: cs).getLast? = some d := by
        rw [← List.head?_reverse, hrev]
        rfl
      rw [dropWhile_cons_of_neg (h2 d hd), ← hrev, List.reverse_reverse]

theorem singleton_isPrefixOf_iff {a : Char} {l : Str} :
    ([a].isPrefixOf l) = true ↔ l.head? = some a := by
  cases l with
  | nil => simp [List.isPrefixOf]
  | cons c cs =>
    simp only [List.isPrefixOf, Bool.and_eq_true, beq_iff_eq, List.head?_cons,
      Option.some.injEq]
    constructor
    · rintro ⟨rfl, -⟩
      rfl
    · rintro rfl
      exact ⟨rfl, by simp [List.isPrefixOf]⟩

theorem singleton_isSuffixOf_iff {a : Char} {l : Str} :
    ([a].isSuffixOf l) = true ↔ l.getLast? = some a := by
  show ([a].reverse.isPrefixOf l.reverse) = true ↔ _
  rw [show [a].reverse = [a] from rfl, singleton_isPrefixOf_iff, List.head?_reverse]

theorem trimPrefix_one_eq_self {q : Char} {l : Str} (h : l.head? ≠ some q) :
    trimPrefixStr [q] l = l := by
  unfold trimPrefixStr
  rw [if_neg]
  intro hp
  exact h (singleton_isPrefixOf_iff.mp hp)

theorem trimSuffix_one_eq_self {q : Char} {l : Str} (h : l.getLast? ≠ some q) :
    trimSuffixStr [q] l = l := by
  unfold trimSuffixStr
  rw [if_neg]
  intro hp
  exact h (singleton_isSuffixOf_iff.mp hp)

theorem stripQuotes_eq_self {l : Str}
    (h1 : ∀ c, l.head? = some c → isGoSpace c = false ∧ c ≠ '"' ∧ c ≠ '\'')
    (h2 : ∀ c, l.getLast? = some c → isGoSpace c = false ∧ c ≠ '"' ∧ c ≠ '\'') :
    stripQuotes l = l := by
  simp only [stripQuotes]
  rw [trimSpace_eq_self (fun c hc => (h1 c hc).1) (fun c hc => (h2 c hc).1),
    trimPrefix_one_eq_self (fun hc => (h1 _ hc).2.1 rfl),
    trimPrefix_one_eq_self (fun hc => (h1 _ hc).2.2 rfl),
    trimSuffix_one_eq_self (fun hc => (h2 _ hc).2.1 rfl),
    trimSuffix_one_eq_self (fun hc => (h2 _ hc).2.2 rfl)]

theorem isModelChar_not_space_quote {c : Char} (h : isModelChar c = true) :
    isGoSpace c = false ∧ c ≠ '"' ∧ c ≠ '\'' := by
  refine ⟨?_, ?_, ?_⟩
  · cases hgs : isGoSpace c
    · rfl
    · exfalso
      simp only [isGoSpace, decide_eq_true_eq] at hgs
      simp only [isModelChar, isWordChar, Bool.or_eq_true, decide_eq_true_eq] at h
      omega
  · intro hq
    subst hq
    exact absurd h (by decide)
  · intro hq
    subst hq
    exact absurd h (by decide)

/-- The match condition of the anchored pattern in `normalizeName`, as a
function of the quote-stripped token. -/
def gpt5MatchCond (raw : Str) : Bool :=
  ("gpt-5-".toList).isPrefixOf raw && isDigitChar ((raw.drop 6).headD ' ') &&
    (raw.drop 6).all isModelChar

theorem normalizeName_eq (name : Str) :
    normalizeName name =
      if gpt5MatchCond (stripQuotes name) then
        "gpt-5.".toList ++ (stripQuotes name).drop 6
      else stripQuotes name := rfl

theorem stripQuotes_gpt5dot (rest : Str) (hne : rest ≠ [])
    (hall : rest.all isModelChar = true) :
    stripQuotes ("gpt-5.".toList ++ rest) = "gpt-5.".toList ++ rest := by
  apply stripQuotes_eq_self
  · intro c hc
    have : c = 'g' := by
      simp only [String.toList] at hc
      simp at hc
      exact hc.symm
    subst this
    refine ⟨by decide, by decide, by decide⟩
  · intro c hc
    have hlast : rest.getLast? = some c := by
      rwa [List.getLast?_append_of_ne_nil _ hne] at hc
    have hmem : c ∈ rest := List.mem_of_mem_getLast? hlast
    exact isModelChar_not_space_quote (List.all_eq_true.mp hall c hmem)

theorem gpt5dash_not_prefix_dot (rest : Str) :
    (("gpt-5-".toList).isPrefixOf ("gpt-5.".toList ++ rest)) = false := rfl

theorem normalizeName_gpt5dot (rest : Str) (hne : rest ≠ [])
    (hall : rest.all isModelChar = true) :
    normalizeName ("gpt-5.".toList ++ rest) = "gpt-5.".toList ++ rest := by
  rw [normalizeName_eq, stripQuotes_gpt5dot rest hne hall]
  rw [if_neg]
  intro hm
  unfold gpt5MatchCond at hm
  rw [gpt5dash_not_prefix_dot] at hm
  simp at hm

theorem gpt5MatchCond_decomp {raw : Str} (h : gpt5MatchCond raw = true) :
    raw = "gpt-5-".toList ++ raw.drop 6 ∧ raw.drop 6 ≠ [] ∧
      (raw.drop 6).all isModelChar = true := by
  unfold gpt5MatchCond at h
  rw [Bool.and_eq_true, Bool.and_eq_true] at h
  obtain ⟨⟨hp, hd⟩, hm⟩ := h
  have htake : raw.take 6 = "gpt-5-".toList := by
    rcases List.isPrefixOf_iff_prefix.mp hp with ⟨t, ht⟩
    rw [← ht]
    rfl
  refine ⟨by conv_lhs => rw [← List.take_append_drop 6 raw, htake], ?_, hm⟩
  intro hnil
  rw [hnil] at hd
  exact absurd hd (by decide)


/-! ### Claim C2: idempotence of normalization -/

/-- **C2 counterexample.**  `stripQuotes` peels one quote layer per side per
call, so on the three-character token `"""` the first application leaves a
stray quote and the second application removes it: normalization is not
idempotent on every raw token. -/
theorem claim_C2_counterexample :
    normalizeName (normalizeName ("\"\"\"".toList)) ≠
      normalizeName ("\"\"\"".toList) := by decide

/-- **C2 (amended).**  Normalization is idempotent on every token on which
quote-stripping is idempotent (in particular on every token carrying at most
one layer of quotes); the rewritten dash-free form never re-matches the dash
pattern. -/
theorem claim_C2_amended (x : Str)
    (h : stripQuotes (stripQuotes x) = stripQuotes x) :
    normalizeName (normalizeName x) = normalizeName x := by
  rw [normalizeName_eq x]
  by_cases hm : gpt5MatchCond (stripQuotes x) = true
  · rw [if_pos hm]
    obtain ⟨-, hne, hall⟩ := gpt5MatchCond_decomp hm
    exact normalizeName_gpt5dot _ hne hall
  · rw [if_neg hm, normalizeName_eq, h, if_neg hm]

/-- **C2 witness.** -/
theorem claim_C2_witness :
    stripQuotes (stripQuotes ("\"gpt-5-1-codex-max\"".toList)) =
        stripQuotes ("\"gpt-5-1-codex-max\"".toList) ∧
      normalizeName (normalizeName ("\"gpt-5-1-codex-max\"".toList)) =
        normalizeName ("\"gpt-5-1-codex-max\"".toList) :=
  ⟨by decide, claim_C2_amended ("\"gpt-5-1-codex-max\"".toList) (by decide)⟩

/-! ### Claim C4: spec Example A -/

/-- The Example A input text. -/
def exampleAText : Str :=
  "apikey:[\"gpt-5\",\"gpt-5-1-codex-max\"] chatgpt:AUTH_LIST".toList

/-- **C4.**  On Example A with `includeMini = false`: normalization rewrites
`gpt-5-1-codex-max` to `gpt-5.1-codex-max`; the merged, normalized candidate
set is exactly {gpt-5, gpt-5.1-codex-max}; the synthesized array is
`["gpt-5.1-codex-max","gpt-5"]`; the array-literal `apikey` field and then the
symbolic-reference `chatgpt` field are both rewritten to that same array
text. -/
theorem claim_C4 :
    normalizeName ("\"gpt-5-1-codex-max\"".toList) = "gpt-5.1-codex-max".toList ∧
    normalizedSet (miniFiltered (seededCandidates exampleAText) false) =
      ["gpt-5".toList, "gpt-5.1-codex-max".toList] ∧
    buildApikeyList exampleAText false =
      ["\"gpt-5.1-codex-max\"".toList, "\"gpt-5\"".toList] ∧
    ensureApikey exampleAText false =
      ("apikey:[\"gpt-5.1-codex-max\",\"gpt-5\"] chatgpt:AUTH_LIST".toList, true) ∧
    ensureChatgpt (ensureApikey exampleAText false).1 false =
      (("apikey:[\"gpt-5.1-codex-max\",\"gpt-5\"]" ++
          " chatgpt:[\"gpt-5.1-codex-max\",\"gpt-5\"]").toList, true) := by
  refine ⟨by decide, by decide, by decide, by decide, by decide⟩

/-! ### Claim C5: seeding and non-emptiness -/

/-- **C5 counterexample.**  The default identifier is seeded *before* the
mini filter runs, so a text whose only extracted identifier is a mini model
leaves, with `includeMini = false`, an empty candidate list entering the
ordering step and an empty synthesized array. -/
theorem claim_C5_counterexample :
    miniFiltered (seededCandidates ("gpt-5-mini".toList)) false = [] ∧
      buildApikeyList ("gpt-5-mini".toList) false = [] := by
  refine ⟨by decide, by decide⟩

/-- **C5 (amended).**  When the three extraction patterns together yield no
identifiers, the candidate set is seeded with the single default identifier
`gpt-5.1-codex-max` and the synthesized array is exactly
`["gpt-5.1-codex-max"]`, for either value of `includeMini`.  (In general the
array can still be empty: the seeding happens before the mini filter.) -/
theorem claim_C5_amended (text : Str) (includeMini : Bool)
    (h1 : findGpt5Models text = []) (h2 : parseDefaultOrder text = [])
    (h3 : findCodexMaxVersions text = []) :
    buildApikeyList text includeMini = ["\"gpt-5.1-codex-max\"".toList] := by
  unfold buildApikeyList seededCandidates rawCandidates
  rw [h1, h2, h3]
  cases includeMini <;> rfl

/-- **C5 witness.** -/
theorem claim_C5_witness :
    findGpt5Models ("hello world".toList) = [] ∧
      parseDefaultOrder ("hello world".toList) = [] ∧
      findCodexMaxVersions ("hello world".toList) = [] ∧
      buildApikeyList ("hello world".toList) false =
        ["\"gpt-5.1-codex-max\"".toList] :=
  ⟨by decide, by decide, by decide,
    claim_C5_amended ("hello world".toList) false (by decide) (by decide)
      (by decide)⟩

/-! ### Claim C9: spec Example C -/

/-- **C9 counterexample.**  In the candidate set {gpt-5-mini,
gpt-5.1-codex-max} with `includeMini = true`, the mini identifier is indeed
ranked last — but its category rank is 2 (it does not contain "codex"), not 3
as the claim states; rank 3 is reserved for "codex-mini" identifiers. -/
theorem claim_C9_counterexample :
    buildApikeyList ("gpt-5-mini gpt-5.1-codex-max".toList) true =
        ["\"gpt-5.1-codex-max\"".toList, "\"gpt-5-mini\"".toList] ∧
      (modelSortKey ("gpt-5-mini".toList)).2.1 = 2 ∧
      (modelSortKey ("gpt-5-mini".toList)).2.1 ≠ 3 := by
  refine ⟨by decide, by decide, by decide⟩

/-- **C9 (amended).**  For the candidate set {gpt-5-mini, gpt-5.1-codex-max}:
with `includeMini = true` the produced array contains both entries with the
mini identifier ranked last, at category rank 2 (rank 3 would require the
"codex-mini" substring); with `includeMini = false` the array contains only
`["gpt-5.1-codex-max"]`. -/
theorem claim_C9_amended :
    buildApikeyList ("gpt-5-mini gpt-5.1-codex-max".toList) true =
        ["\"gpt-5.1-codex-max\"".toList, "\"gpt-5-mini\"".toList] ∧
      buildApikeyList ("gpt-5-mini gpt-5.1-codex-max".toList) false =
        ["\"gpt-5.1-codex-max\"".toList] ∧
      (modelSortKey ("gpt-5-mini".toList)).2.1 = 2 ∧
      (modelSortKey ("gpt-5-codex-mini".toList)).2.1 = 3 := by
  refine ⟨by decide, by decide, by decide, by decide⟩


/-! ### Claim C6: category ordering among equal version tuples -/

theorem containsStr_iff {l sub : Str} :
    containsStr l sub = true ↔ ∃ p q, l = p ++ sub ++ q := by
  induction l with
  | nil =>
    simp only [containsStr, List.isEmpty_iff]
    constructor
    · rintro rfl
      exact ⟨[], [], rfl⟩
    · rintro ⟨p, q, hpq⟩
      exact (List.append_eq_nil.mp (List.append_eq_nil.mp hpq.symm).1).2
  | cons c cs ih =>
    simp only [containsStr, Bool.or_eq_true, ih]
    constructor
    · rintro (hp | ⟨p, q, rfl⟩)
      · rcases List.isPrefixOf_iff_prefix.mp hp with ⟨t, ht⟩
        exact ⟨[], t, by rw [← ht]; rfl⟩
      · exact ⟨c :: p, q, rfl⟩
    · rintro ⟨p, q, hpq⟩
      cases p with
      | nil =>
        left
        exact List.isPrefixOf_iff_prefix.mpr ⟨q, by rw [hpq]; rfl⟩
      | cons c' p' =>
        right
        injection hpq with h1 h2
        exact ⟨p', q, h2⟩

theorem containsStr_codex_of_codexMax {name : Str}
    (h : containsStr name ("codex-max".toList) = true) :
    containsStr name ("codex".toList) = true := by
  rcases containsStr_iff.mp h with ⟨p, q, rfl⟩
  exact containsStr_iff.mpr ⟨p, "-max".toList ++ q, by simp⟩

theorem containsStr_codex_of_codexMini {name : Str}
    (h : containsStr name ("codex-mini".toList) = true) :
    containsStr name ("codex".toList) = true := by
  rcases containsStr_iff.mp h with ⟨p, q, rfl⟩
  exact containsStr_iff.mpr ⟨p, "-mini".toList ++ q, by simp⟩

theorem containsStr_mini_of_codexMini {name : Str}
    (h : containsStr name ("codex-mini".toList) = true) :
    containsStr name ("mini".toList) = true := by
  rcases containsStr_iff.mp h with ⟨p, q, rfl⟩
  exact containsStr_iff.mpr ⟨p ++ "codex-".toList, q, by simp⟩

/-- The category-rank table of `modelSortKey`, spelled out per case. -/
theorem categoryOf_cases (name : Str) :
    (containsStr name ("codex-max".toList) = true → categoryOf name = 0) ∧
      (containsStr name ("codex-max".toList) = false →
        containsStr name ("codex".toList) = true →
        containsStr name ("mini".toList) = false → categoryOf name = 1) ∧
      (containsStr name ("codex-max".toList) = false →
        containsStr name ("codex-mini".toList) = true → categoryOf name = 3) ∧
      (containsStr name ("codex".toList) = false → categoryOf name = 2) := by
  have ne_true : ∀ {b : Bool}, b = false → ¬(b = true) := by
    rintro b rfl h
    cases h
  refine ⟨?_, ?_, ?_, ?_⟩
  · intro h
    simp only [categoryOf]
    rw [if_pos h]
  · intro h0 h1 h2
    simp only [categoryOf]
    rw [if_neg (ne_true h0), if_pos (by rw [h1, h2]; rfl)]
  · intro h0 h1
    have hmini := containsStr_mini_of_codexMini h1
    have hcodex := containsStr_codex_of_codexMini h1
    simp only [categoryOf]
    rw [if_neg (ne_true h0), if_neg (ne_true (by rw [hcodex, hmini]; rfl)),
      if_pos h1]
  · intro h
    have h0 : containsStr name ("codex-max".toList) = false := by
      cases hc : containsStr name ("codex-max".toList)
      · rfl
      · rw [containsStr_codex_of_codexMax hc] at h
        cases h
    have h3 : containsStr name ("codex-mini".toList) = false := by
      cases hc : containsStr name ("codex-mini".toList)
      · rfl
      · rw [containsStr_codex_of_codexMini hc] at h
        cases h
    simp only [categoryOf]
    rw [if_neg (ne_true h0), if_neg (ne_true (by rw [h]; rfl)), if_neg (ne_true h3)]

/-- Position of the first occurrence of `a` in `l`. -/
def idxOf [DecidableEq α] (a : α) : List α → Nat
  | [] => 0
  | x :: xs => if x = a then 0 else idxOf a xs + 1

theorem idxOf_lt_length [DecidableEq α] {a : α} :
    ∀ {l : List α}, a ∈ l → idxOf a l < l.length
  | [], h => absurd h (by simp)
  | x :: xs, h => by
    simp only [idxOf]
    split
    · simp only [List.length_cons]
      omega
    · rename_i hxa
      rcases List.mem_cons.mp h with rfl | hmem
      · exact absurd rfl hxa
      · simpa [Nat.succ_lt_succ_iff] using idxOf_lt_length hmem

theorem get_idxOf [DecidableEq α] {a : α} :
    ∀ {l : List α} (h : a ∈ l), l.get ⟨idxOf a l, idxOf_lt_length h⟩ = a
  | [], h => absurd h (by simp)
  | x :: xs, h => by
    by_cases hxa : x = a
    · subst hxa
      have h0 : idxOf x (x :: xs) = 0 := by
        simp [idxOf]
      have hrw : (x :: xs).get ⟨idxOf x (x :: xs), idxOf_lt_length h⟩ =
          (x :: xs).get ⟨0, by simp⟩ := by
        congr 1
        exact Fin.ext h0
      rw [hrw]
      rfl
    · have hmem : a ∈ xs := by
        rcases List.mem_cons.mp h with rfl | hm
        · exact absurd rfl hxa
        · exact hm
      have hsucc : idxOf a (x :: xs) = idxOf a xs + 1 := by
        simp only [idxOf]
        rw [if_neg hxa]
      have hlt : idxOf a xs + 1 < (x :: xs).length := by
        have := idxOf_lt_length hmem
        simp only [List.length_cons]
        omega
      have hrw : (x :: xs).get ⟨idxOf a (x :: xs), idxOf_lt_length h⟩ =
          (x :: xs).get ⟨idxOf a xs + 1, hlt⟩ := by
        congr 1
        exact Fin.ext hsucc
      rw [hrw]
      exact get_idxOf hmem

/-- **C6.**  Among identifiers in the ordered output with equal version
tuples, strictly smaller category rank means strictly earlier position, and
the ranks are as the spec states: "codex-max" ⇒ 0, "codex" without "mini" ⇒
1, "codex-mini" ⇒ 3, anything without "codex" (the plain identifiers) ⇒ 2 —
so codex-max precedes codex (non-mini) precedes plain precedes codex-mini. -/
theorem claim_C6 (ms : List Str) (a b : Str)
    (ha : a ∈ orderedNames ms) (hb : b ∈ orderedNames ms)
    (hv : versionTuple a = versionTuple b)
    (hcat : categoryOf a < categoryOf b) :
    idxOf a (orderedNames ms) < idxOf b (orderedNames ms) ∧
      ∀ name : Str,
        (containsStr name ("codex-max".toList) = true → categoryOf name = 0) ∧
        (containsStr name ("codex-max".toList) = false →
          containsStr name ("codex".toList) = true →
          containsStr name ("mini".toList) = false → categoryOf name = 1) ∧
        (containsStr name ("codex-max".toList) = false →
          containsStr name ("codex-mini".toList) = true → categoryOf name = 3) ∧
        (containsStr name ("codex".toList) = false → categoryOf name = 2) := by
  refine ⟨?_, categoryOf_cases⟩
  have hless : modelLess a b = true :=
    modelLess_iff.mpr (Or.inr ⟨by unfold negVT; rw [hv], Or.inl hcat⟩)
  have hne : a ≠ b := fun he => absurd hcat (by rw [he]; omega)
  have hia : (idxOf a (orderedNames ms)) < (orderedNames ms).length :=
    idxOf_lt_length ha
  have hib : (idxOf b (orderedNames ms)) < (orderedNames ms).length :=
    idxOf_lt_length hb
  rcases Nat.lt_trichotomy (idxOf a (orderedNames ms))
      (idxOf b (orderedNames ms)) with h | h | h
  · exact h
  · exfalso
    apply hne
    have hget : (orderedNames ms).get ⟨idxOf a (orderedNames ms), hia⟩ =
        (orderedNames ms).get ⟨idxOf b (orderedNames ms), hib⟩ := by
      congr 1
      exact Fin.ext h
    rwa [get_idxOf ha, get_idxOf hb] at hget
  · exfalso
    have hp := List.pairwise_iff_get.mp (pairwise_orderedNames ms)
      ⟨idxOf b (orderedNames ms), hib⟩ ⟨idxOf a (orderedNames ms), hia⟩
      (Fin.mk_lt_mk.mpr h)
    rw [get_idxOf hb, get_idxOf ha] at hp
    rw [modelLeB, hless] at hp
    cases hp

/-- **C6 witness.** -/
theorem claim_C6_witness :
    idxOf ("gpt-5.1-codex-max".toList)
        (orderedNames ["gpt-5.1-codex".toList, "gpt-5.1-codex-max".toList]) <
      idxOf ("gpt-5.1-codex".toList)
        (orderedNames ["gpt-5.1-codex".toList, "gpt-5.1-codex-max".toList]) :=
  (claim_C6 ["gpt-5.1-codex".toList, "gpt-5.1-codex-max".toList]
    ("gpt-5.1-codex-max".toList) ("gpt-5.1-codex".toList)
    (by decide) (by decide) (by decide) (by decide)).1


/-! ### Claims C1 and C3: the patch pipeline -/

theorem ne_true_of_eq_false {b : Bool} (h : b = false) : ¬(b = true) := by
  rw [h]
  simp

/-- A field substitution that reports no change returned the text verbatim. -/
theorem replaceAuthMethodArray_of_not_changed {text field : Str}
    {items : List Str} (h : (replaceAuthMethodArray text field items).2 = false) :
    (replaceAuthMethodArray text field items).1 = text := by
  by_cases h1 : hasMatchWith (matchFieldArrayAt field) text.length text = true
  · exfalso
    unfold replaceAuthMethodArray at h
    rw [if_pos h1] at h
    simp at h
  · by_cases h2 : hasMatchWith (matchFieldVarAt field) text.length text = true
    · exfalso
      unfold replaceAuthMethodArray at h
      rw [if_neg h1, if_pos h2] at h
      simp at h
    · unfold replaceAuthMethodArray
      rw [if_neg h1, if_neg h2]

/-- An auth-clear that reports no change returned the text verbatim. -/
theorem removeAuthOnly_of_not_changed {text : Str}
    (h : (removeAuthOnly text).2 = false) : (removeAuthOnly text).1 = text := by
  unfold removeAuthOnly at h ⊢
  cases hfs : findAuthSplit text with
  | none => rfl
  | some r =>
    obtain ⟨p, contents, rest⟩ := r
    rw [hfs] at h
    have h' : (if (trimSpace contents).isEmpty = true then (text, false)
        else (p ++ authRepl ++ rest, true)).2 = false := h
    show (if (trimSpace contents).isEmpty = true then (text, false)
        else (p ++ authRepl ++ rest, true)).1 = text
    by_cases ht : (trimSpace contents).isEmpty = true
    · rw [if_pos ht]
    · exfalso
      rw [if_neg ht] at h'
      simp at h'

/-- **C1 counterexample.**  A `DEFAULT_MODEL_ORDER` declaration swallowed by
the `apikey` array span disappears in the first run's output, so the second
run synthesizes a different array and rewrites the text again — and since the
change flags report "pattern matched", not "text changed", the second run
also reports "patched" (both field flags set, hence a write), never "already
compliant". -/
theorem claim_C1_counterexample :
    (patchTextOnce
        ((patchTextOnce ("apikey:[DEFAULT_MODEL_ORDER=[zz]chatgpt:AUTH_LIST".toList)
            false).1) false).1 ≠
      (patchTextOnce ("apikey:[DEFAULT_MODEL_ORDER=[zz]chatgpt:AUTH_LIST".toList)
          false).1 ∧
    (patchTextOnce
        ((patchTextOnce ("apikey:[DEFAULT_MODEL_ORDER=[zz]chatgpt:AUTH_LIST".toList)
            false).1) false).2.1 = true ∧
    (patchTextOnce
        ((patchTextOnce ("apikey:[DEFAULT_MODEL_ORDER=[zz]chatgpt:AUTH_LIST".toList)
            false).1) false).2.2.1 = true := by
  refine ⟨by decide, by decide, by decide⟩

/-- **C1 (amended).**  When a run reports "already compliant" (all three
change flags false), its output is the input text, and rerunning the full
per-file patch operation reproduces exactly the same result — so a second run
on such a file again reports "already compliant" with no write.  (In general
a second run rewrites and reports "patched" whenever a field shape is
present, because the flags record pattern presence, not text change.) -/
theorem claim_C1_amended (text : Str) (includeMini : Bool)
    (h : (patchTextOnce text includeMini).2 = (false, false, false)) :
    (patchTextOnce text includeMini).1 = text ∧
      patchTextOnce ((patchTextOnce text includeMini).1) includeMini =
        (text, false, false, false) := by
  have h1 : (ensureApikey text includeMini).2 = false := congrArg Prod.fst h
  have h2 : (ensureChatgpt (ensureApikey text includeMini).1 includeMini).2 = false :=
    congrArg (fun p => p.2.1) h
  have h3 : (removeAuthOnly
      (ensureChatgpt (ensureApikey text includeMini).1 includeMini).1).2 = false :=
    congrArg (fun p => p.2.2) h
  have e1 : (ensureApikey text includeMini).1 = text :=
    replaceAuthMethodArray_of_not_changed h1
  have e2 : (ensureChatgpt (ensureApikey text includeMini).1 includeMini).1 = text := by
    rw [e1] at h2 ⊢
    exact replaceAuthMethodArray_of_not_changed h2
  have e3 : (patchTextOnce text includeMini).1 = text := by
    show (removeAuthOnly
      (ensureChatgpt (ensureApikey text includeMini).1 includeMini).1).1 = text
    rw [e2] at h3 ⊢
    exact removeAuthOnly_of_not_changed h3
  refine ⟨e3, ?_⟩
  rw [e3]
  have : patchTextOnce text includeMini =
      ((patchTextOnce text includeMini).1, (patchTextOnce text includeMini).2) := rfl
  rw [this, e3, h]

/-- **C1 witness.** -/
theorem claim_C1_witness :
    (patchTextOnce ("hello".toList) false).2 = (false, false, false) ∧
      (patchTextOnce ("hello".toList) false).1 = "hello".toList ∧
      patchTextOnce ((patchTextOnce ("hello".toList) false).1) false =
        ("hello".toList, false, false, false) :=
  ⟨by decide, (claim_C1_amended ("hello".toList) false (by decide)).1,
    (claim_C1_amended ("hello".toList) false (by decide)).2⟩

/-- **C3 counterexample.**  The first run's `apikey` substitution can remove
text that the extraction patterns had matched (here a `DEFAULT_MODEL_ORDER`
declaration inside the `apikey` array span), so the array recomputed for the
`chatgpt` field differs from the one substituted into the `apikey` field. -/
theorem claim_C3_counterexample :
    (ensureApikey ("apikey:[DEFAULT_MODEL_ORDER=[zz]chatgpt:AUTH_LIST".toList)
        false).2 = true ∧
    (ensureChatgpt
        (ensureApikey ("apikey:[DEFAULT_MODEL_ORDER=[zz]chatgpt:AUTH_LIST".toList)
            false).1 false).2 = true ∧
    buildApikeyList ("apikey:[DEFAULT_MODEL_ORDER=[zz]chatgpt:AUTH_LIST".toList)
        false ≠
      buildApikeyList
        (ensureApikey ("apikey:[DEFAULT_MODEL_ORDER=[zz]chatgpt:AUTH_LIST".toList)
            false).1 false ∧
    (ensureChatgpt
        (ensureApikey ("apikey:[DEFAULT_MODEL_ORDER=[zz]chatgpt:AUTH_LIST".toList)
            false).1 false).1 =
      "apikey:[\"zz\"]chatgpt:[\"gpt-5.1-codex-max\"]".toList := by
  refine ⟨by decide, by decide, by decide, by decide⟩

/-- **C3 (amended).**  The two field substitutions call the same synthesis
function, but the `chatgpt` array is recomputed from the text *after* the
`apikey` substitution; the two arrays are byte-identical whenever that
substitution leaves the text unchanged (in general they can differ). -/
theorem claim_C3_amended (text : Str) (includeMini : Bool)
    (h : (ensureApikey text includeMini).1 = text) :
    buildApikeyList (ensureApikey text includeMini).1 includeMini =
      buildApikeyList text includeMini := by
  rw [h]

/-- **C3 witness.** -/
theorem claim_C3_witness :
    (ensureApikey ("chatgpt:AUTH_LIST".toList) false).1 = "chatgpt:AUTH_LIST".toList ∧
      buildApikeyList (ensureApikey ("chatgpt:AUTH_LIST".toList) false).1 false =
        buildApikeyList ("chatgpt:AUTH_LIST".toList) false :=
  ⟨by decide, claim_C3_amended ("chatgpt:AUTH_LIST".toList) false (by decide)⟩


/-! ### Claim C7: the two Patcher strategies -/

/-- `MatchString` holds exactly when the matcher fires on some suffix. -/
theorem hasMatchWith_iff_suffix (m : Str → Option (Str × Str)) :
    ∀ (fuel : Nat) (l : Str), l.length ≤ fuel →
      (hasMatchWith m fuel l = true ↔
        ∃ s, s <:+ l ∧ s ≠ [] ∧ (m s).isSome = true)
  | _, [], _ => by
    constructor
    · intro h
      exfalso
      cases ‹Nat› with
      | zero => exact absurd h (by simp [hasMatchWith])
      | succ n => exact absurd h (by simp [hasMatchWith])
    · rintro ⟨s, hs, hne, -⟩
      exact absurd (List.suffix_nil.mp hs) hne
  | 0, c :: cs, hlen => by
    simp at hlen
  | fuel + 1, c :: cs, hlen => by
    simp only [hasMatchWith]
    cases hm : m (c :: cs) with
    | some r =>
      constructor
      · intro
        exact ⟨c :: cs, List.suffix_refl _, by simp, by rw [hm]; rfl⟩
      · intro
        rfl
    | none =>
      rw [hasMatchWith_iff_suffix m fuel cs
        (by simp only [List.length_cons] at hlen; omega)]
      constructor
      · rintro ⟨s, hs, hne, hsome⟩
        exact ⟨s, hs.trans (List.suffix_cons c cs), hne, hsome⟩
      · rintro ⟨s, hs, hne, hsome⟩
        rcases List.suffix_cons_iff.mp hs with rfl | hs'
        · rw [hm] at hsome
          cases hsome
        · exact ⟨s, hs', hne, hsome⟩

theorem matchFieldArrayAt_nil (field : Str) : matchFieldArrayAt field [] = none := by
  unfold matchFieldArrayAt
  split
  · rw [List.drop_nil]
  · rfl

theorem matchFieldVarAt_nil (field : Str) : matchFieldVarAt field [] = none := by
  unfold matchFieldVarAt
  split
  · rw [List.drop_nil]
  · rfl

/-- Bridge: the array-shape presence test, in terms of suffixes. -/
theorem hasArrayMatch_iff (field text : Str) :
    hasMatchWith (matchFieldArrayAt field) text.length text = true ↔
      ∃ s, s <:+ text ∧ (matchFieldArrayAt field s).isSome = true := by
  rw [hasMatchWith_iff_suffix (matchFieldArrayAt field) text.length text le_rfl]
  constructor
  · rintro ⟨s, hs, -, hsome⟩
    exact ⟨s, hs, hsome⟩
  · rintro ⟨s, hs, hsome⟩
    refine ⟨s, hs, ?_, hsome⟩
    rintro rfl
    rw [matchFieldArrayAt_nil] at hsome
    cases hsome

/-- Bridge: the constant-reference presence test, in terms of suffixes. -/
theorem hasVarMatch_iff (field text : Str) :
    hasMatchWith (matchFieldVarAt field) text.length text = true ↔
      ∃ s, s <:+ text ∧ (matchFieldVarAt field s).isSome = true := by
  rw [hasMatchWith_iff_suffix (matchFieldVarAt field) text.length text le_rfl]
  constructor
  · rintro ⟨s, hs, -, hsome⟩
    exact ⟨s, hs, hsome⟩
  · rintro ⟨s, hs, hsome⟩
    refine ⟨s, hs, ?_, hsome⟩
    rintro rfl
    rw [matchFieldVarAt_nil] at hsome
    cases hsome

/-- **C7.**  The two substitution strategies are tried in order with the
first match winning: when the array-literal shape `<field>:[...]` occurs
anywhere, every occurrence of it is rewritten (flag set) regardless of any
constant reference; otherwise, when `<field>:` followed by a constant-style
uppercase identifier occurs, that form is rewritten (flag set); when neither
shape occurs, the returned text is exactly the input and the operation
reports "no change" — an ordinary result, not an error. -/
theorem claim_C7 (text field : Str) (items : List Str) :
    ((∃ s, s <:+ text ∧ (matchFieldArrayAt field s).isSome = true) →
      replaceAuthMethodArray text field items =
        (replaceAllWith (matchFieldArrayAt field) (newFieldOf field items)
          text.length text, true)) ∧
    (¬ (∃ s, s <:+ text ∧ (matchFieldArrayAt field s).isSome = true) →
      (∃ s, s <:+ text ∧ (matchFieldVarAt field s).isSome = true) →
      replaceAuthMethodArray text field items =
        (replaceAllWith (matchFieldVarAt field) (newFieldOf field items)
          text.length text, true)) ∧
    (¬ (∃ s, s <:+ text ∧ (matchFieldArrayAt field s).isSome = true) →
      ¬ (∃ s, s <:+ text ∧ (matchFieldVarAt field s).isSome = true) →
      replaceAuthMethodArray text field items = (text, false)) := by
  refine ⟨?_, ?_, ?_⟩
  · intro harr
    unfold replaceAuthMethodArray
    rw [if_pos ((hasArrayMatch_iff field text).mpr harr)]
  · intro harr hvar
    have h1 : hasMatchWith (matchFieldArrayAt field) text.length text = false := by
      cases h : hasMatchWith (matchFieldArrayAt field) text.length text
      · rfl
      · exact absurd ((hasArrayMatch_iff field text).mp h) harr
    unfold replaceAuthMethodArray
    rw [if_neg (ne_true_of_eq_false h1),
      if_pos ((hasVarMatch_iff field text).mpr hvar)]
  · intro harr hvar
    have h1 : hasMatchWith (matchFieldArrayAt field) text.length text = false := by
      cases h : hasMatchWith (matchFieldArrayAt field) text.length text
      · rfl
      · exact absurd ((hasArrayMatch_iff field text).mp h) harr
    have h2 : hasMatchWith (matchFieldVarAt field) text.length text = false := by
      cases h : hasMatchWith (matchFieldVarAt field) text.length text
      · rfl
      · exact absurd ((hasVarMatch_iff field text).mp h) hvar
    unfold replaceAuthMethodArray
    rw [if_neg (ne_true_of_eq_false h1), if_neg (ne_true_of_eq_false h2)]

/-- **C7 witness**: on `chatgpt:AUTH_LIST` no array literal is present, the
constant reference is, and the second strategy fires. -/
theorem claim_C7_witness :
    replaceAuthMethodArray ("chatgpt:AUTH_LIST".toList) ("chatgpt".toList)
        ["\"gpt-5\"".toList] =
      (replaceAllWith (matchFieldVarAt ("chatgpt".toList))
        (newFieldOf ("chatgpt".toList) ["\"gpt-5\"".toList])
        ("chatgpt:AUTH_LIST".toList).length ("chatgpt:AUTH_LIST".toList), true) :=
  (claim_C7 ("chatgpt:AUTH_LIST".toList) ("chatgpt".toList)
      ["\"gpt-5\"".toList]).2.1
    (fun hex =>
      absurd ((hasArrayMatch_iff ("chatgpt".toList) ("chatgpt:AUTH_LIST".toList)).mpr hex)
        (by decide))
    ((hasVarMatch_iff ("chatgpt".toList) ("chatgpt:AUTH_LIST".toList)).mp (by decide))


/-! ### Claim C8: the Auth-Clearer -/

theorem takeWhile_cons_of_neg {p : Char → Bool} {c : Char} (cs : Str)
    (h : p c = false) : (c :: cs).takeWhile p = [] := by
  simp [List.takeWhile_cons, h]

theorem takeWhile_append_all {p : Char → Bool} :
    ∀ {a : Str} (b : Str), (∀ x ∈ a, p x = true) →
      (a ++ b).takeWhile p = a ++ b.takeWhile p
  | [], b, _ => rfl
  | x :: xs, b, h => by
    have hx : p x = true := h x (by simp)
    simp only [List.cons_append, List.takeWhile_cons, hx, if_true]
    rw [takeWhile_append_all b (fun y hy => h y (by simp [hy]))]

theorem dropWhile_cons_head {p : Char → Bool} :
    ∀ {l : Str} {c : Char} {cs : Str}, l.dropWhile p = c :: cs → p c = false
  | [], c, cs, h => by simp at h
  | x :: xs, c, cs, h => by
    rw [List.dropWhile_cons] at h
    by_cases hx : p x = true
    · rw [if_pos hx] at h
      exact dropWhile_cons_head h
    · rw [if_neg hx] at h
      injection h with h1 h2
      subst h1
      cases hpx : p x
      · rfl
      · exact absurd hpx hx

theorem authLit_clean : ∀ y ∈ authLit, y ≠ ']' := by decide

theorem authLit_aperiodic :
    ∀ d, 1 ≤ d → d < authLit.length →
      authLit.drop d ≠ authLit.take (authLit.length - d) := by decide

theorem authRepl_eq : authRepl = authLit ++ [']', ')'] := by decide

theorem matchAuthAt_nil : matchAuthAt [] = none := by decide

theorem matchAuthAt_none_unmatched {l : Str}
    (h : ¬(authLit.isPrefixOf l = true)) : matchAuthAt l = none := by
  unfold matchAuthAt
  rw [if_neg h]

/-- Evaluate the auth matcher on a text that starts with the literal and
whose bracket-free zone `u1` precedes the first `]`. -/
theorem matchAuthAt_eval_parts (u1 : Str) (h : ∀ y ∈ u1, y ≠ ']') (z : Str) :
    matchAuthAt (authLit ++ (u1 ++ ']' :: z)) =
      match z with
      | c2 :: rest => if c2 = ')' then some (u1, rest) else none
      | [] => none := by
  have hpre : authLit.isPrefixOf (authLit ++ (u1 ++ ']' :: z)) = true :=
    List.isPrefixOf_iff_prefix.mpr ⟨_, rfl⟩
  have htw : (u1 ++ ']' :: z).takeWhile (· != ']') = u1 := by
    rw [takeWhile_append_all (']' :: z) (fun x hx => by simp [h x hx]),
      takeWhile_cons_of_neg z (by simp), List.append_nil]
  simp only [matchAuthAt]
  rw [if_pos hpre, List.drop_left, htw, List.drop_left u1]
  cases z with
  | nil => rfl
  | cons c2 rest =>
    show (if ']' = ']' ∧ c2 = ')' then some (u1, rest) else none) =
      (if c2 = ')' then some (u1, rest) else none)
    by_cases hc : c2 = ')'
    · rw [if_pos ⟨rfl, hc⟩, if_pos hc]
    · rw [if_neg (fun hand => hc hand.2), if_neg hc]

/-- The auth matcher succeeds on a well-formed assignment. -/
theorem matchAuthAt_of_clean (contents rest : Str) (h : ∀ y ∈ contents, y ≠ ']') :
    matchAuthAt (authLit ++ (contents ++ ']' :: ')' :: rest)) = some (contents, rest) := by
  rw [matchAuthAt_eval_parts contents h (')' :: rest)]
  show (if (')' : Char) = ')' then some (contents, rest) else none) = some (contents, rest)
  rw [if_pos rfl]

theorem matchAuthAt_decomp {l c r : Str} (h : matchAuthAt l = some (c, r)) :
    l = authLit ++ (c ++ ']' :: ')' :: r) ∧ ∀ y ∈ c, y ≠ ']' := by
  by_cases hpre : (authLit.isPrefixOf l) = true
  · have hl : l = authLit ++ l.drop authLit.length := by
      rcases List.isPrefixOf_iff_prefix.mp hpre with ⟨t, ht⟩
      conv_lhs => rw [← ht]
      rw [← ht, List.drop_left]
    simp only [matchAuthAt] at h
    rw [if_pos hpre] at h
    set after := l.drop authLit.length with hafter
    set contents := after.takeWhile (· != ']') with hcont
    have hsplit : after = contents ++ after.drop contents.length := by
      have hpref : contents = after.take contents.length := by
        rw [hcont]
        exact List.prefix_iff_eq_take.mp (List.takeWhile_prefix _)
      conv_lhs => rw [← List.take_append_drop contents.length after, ← hpref]
    have hclean : ∀ y ∈ contents, y ≠ ']' := by
      intro y hy
      have := List.mem_takeWhile_imp (hcont ▸ hy)
      simpa using this
    cases hd : after.drop contents.length with
    | nil =>
      rw [hd] at h
      exact Option.noConfusion h
    | cons c1 z =>
      cases z with
      | nil =>
        rw [hd] at h
        exact Option.noConfusion h
      | cons c2 rest =>
        rw [hd] at h
        have h2 : (if c1 = ']' ∧ c2 = ')' then some (contents, rest) else none) =
            some (c, r) := h
        by_cases hcc : c1 = ']' ∧ c2 = ')'
        · rw [if_pos hcc] at h2
          injection h2 with h'
          obtain ⟨rfl, rfl⟩ := hcc
          have h3 : contents = c := congrArg Prod.fst h'
          have h4 : rest = r := congrArg Prod.snd h'
          rw [← h3, ← h4]
          refine ⟨?_, hclean⟩
          rw [hl, hsplit, hd]
        · rw [if_neg hcc] at h2
          cases h2
  · rw [matchAuthAt_none_unmatched hpre] at h
    cases h

theorem findAuthSplit_spec :
    ∀ {text p c r : Str}, findAuthSplit text = some (p, c, r) →
      text = p ++ (authLit ++ (c ++ ']' :: ')' :: r)) ∧ (∀ y ∈ c, y ≠ ']') ∧
        ∀ i, i < p.length → matchAuthAt (text.drop i) = none
  | [], p, c, r, h => by cases h
  | x :: xs, p, c, r, h => by
    simp only [findAuthSplit] at h
    cases hm : matchAuthAt (x :: xs) with
    | some pr =>
      obtain ⟨c0, r0⟩ := pr
      rw [hm] at h
      injection h with h'
      cases h'
      obtain ⟨hdecomp, hclean⟩ := matchAuthAt_decomp hm
      exact ⟨hdecomp, hclean, fun i hi => absurd hi (by simp)⟩
    | none =>
      rw [hm] at h
      cases hfs : findAuthSplit xs with
      | none =>
        rw [hfs] at h
        cases h
      | some pr =>
        obtain ⟨p', c', r'⟩ := pr
        rw [hfs] at h
        injection h with h'
        cases h'
        obtain ⟨hdec, hclean, hfail⟩ := findAuthSplit_spec hfs
        refine ⟨by rw [List.cons_append, ← hdec], hclean, ?_⟩
        intro i hi
        cases i with
        | zero => simpa using hm
        | succ j =>
          have := hfail j (by simp only [List.length_cons] at hi; omega)
          simpa using this

theorem findAuthSplit_append :
    ∀ (p : Str) {tail c r : Str},
      (∀ i, i < p.length → matchAuthAt (p.drop i ++ tail) = none) →
      matchAuthAt tail = some (c, r) →
      findAuthSplit (p ++ tail) = some (p, c, r)
  | [], tail, c, r, _, hm => by
    cases tail with
    | nil =>
      rw [matchAuthAt_nil] at hm
      cases hm
    | cons t ts =>
      simp only [List.nil_append, findAuthSplit]
      rw [hm]
  | q :: p', tail, c, r, hfail, hm => by
    have h0 : matchAuthAt (q :: (p' ++ tail)) = none := by
      have := hfail 0 (by simp)
      simpa using this
    have hrec := findAuthSplit_append p'
      (fun i hi => by
        have := hfail (i + 1) (by simp only [List.length_cons]; omega)
        simpa using this) hm
    show (match matchAuthAt (q :: (p' ++ tail)) with
      | some (contents, rest) => some (([] : Str), contents, rest)
      | none =>
        match findAuthSplit (p' ++ tail) with
        | some (p, contents, rest) => some (q :: p, contents, rest)
        | none => none) = some (q :: p', c, r)
    rw [h0, hrec]

theorem findAuthSplit_none :
    ∀ {t : Str}, (∀ i, matchAuthAt (t.drop i) = none) → findAuthSplit t = none
  | [], _ => rfl
  | x :: xs, h => by
    simp only [findAuthSplit]
    have h0 : matchAuthAt (x :: xs) = none := by simpa using h 0
    rw [h0, findAuthSplit_none (fun i => by simpa using h (i + 1))]

/-- Transfer of match failure from the pre-clear text to the cleared text:
if the auth matcher failed at a position strictly inside the prefix before
the replaced assignment, it still fails there after the assignment's
contents are emptied. -/
theorem matchAuthAt_transfer {s contents rest : Str} (hs : s ≠ [])
    (hc : ∀ y ∈ contents, y ≠ ']')
    (hold : matchAuthAt (s ++ (authLit ++ (contents ++ ']' :: ')' :: rest))) = none) :
    matchAuthAt (s ++ (authLit ++ (']' :: ')' :: rest))) = none := by
  by_cases hpre : (authLit.isPrefixOf (s ++ (authLit ++ (']' :: ')' :: rest)))) = true
  case neg => exact matchAuthAt_none_unmatched hpre
  by_cases hlen : authLit.length ≤ s.length
  case neg =>
    exfalso
    have hd1 : 1 ≤ s.length := by
      cases s with
      | nil => exact absurd rfl hs
      | cons a as => simp
    push_neg at hlen
    have h1 : (s ++ (authLit ++ (']' :: ')' :: rest))).take authLit.length = authLit :=
      (List.prefix_iff_eq_take.mp (List.isPrefixOf_iff_prefix.mp hpre)).symm
    rw [List.take_append_eq_append_take, List.take_of_length_le (le_of_lt hlen),
      List.take_append_of_le_length (by omega)] at h1
    have h2 : authLit.drop s.length = authLit.take (authLit.length - s.length) := by
      conv_lhs => rw [← h1]
      rw [List.drop_left]
    exact authLit_aperiodic s.length hd1 hlen h2
  case pos =>
    have h1 : (s ++ (authLit ++ (']' :: ')' :: rest))).take authLit.length = authLit :=
      (List.prefix_iff_eq_take.mp (List.isPrefixOf_iff_prefix.mp hpre)).symm
    rw [List.take_append_of_le_length hlen] at h1
    have hsdecomp : s = authLit ++ s.drop authLit.length := by
      conv_lhs => rw [← List.take_append_drop authLit.length s, h1]
    set u := s.drop authLit.length with hu
    cases hdw : u.dropWhile (· != ']') with
    | nil =>
      exfalso
      have hueq : u.takeWhile (· != ']') = u := by
        conv_rhs => rw [← List.takeWhile_append_dropWhile (· != ']') u, hdw,
          List.append_nil]
      have hall : ∀ y ∈ u, y ≠ ']' := by
        intro y hy
        have hy' : y ∈ u.takeWhile (· != ']') := by
          rw [hueq]
          exact hy
        have := List.mem_takeWhile_imp hy'
        simpa using this
      have heval : matchAuthAt (s ++ (authLit ++ (contents ++ ']' :: ')' :: rest))) =
          some (u ++ authLit ++ contents, rest) := by
        rw [hsdecomp,
          show (authLit ++ u) ++ (authLit ++ (contents ++ ']' :: ')' :: rest)) =
            authLit ++ ((u ++ authLit ++ contents) ++ ']' :: ')' :: rest) from by
              simp]
        exact matchAuthAt_of_clean (u ++ authLit ++ contents) rest
          (by
            intro y hy
            rcases List.mem_append.mp hy with hy' | hy'
            · rcases List.mem_append.mp hy' with hy'' | hy''
              · exact hall y hy''
              · exact authLit_clean y hy''
            · exact hc y hy')
      rw [heval] at hold
      cases hold
    | cons b u2 =>
      have hb : b = ']' := by
        have hh := dropWhile_cons_head hdw
        simpa using hh
      subst hb
      have hu_split : u = u.takeWhile (· != ']') ++ ']' :: u2 := by
        conv_lhs => rw [← List.takeWhile_append_dropWhile (· != ']') u, hdw]
      set u1 := u.takeWhile (· != ']') with hu1
      have hu1clean : ∀ y ∈ u1, y ≠ ']' := by
        intro y hy
        have := List.mem_takeWhile_imp (hu1 ▸ hy)
        simpa using this
      have holdEval : matchAuthAt (s ++ (authLit ++ (contents ++ ']' :: ')' :: rest))) =
          match u2 ++ (authLit ++ (contents ++ ']' :: ')' :: rest)) with
          | c2 :: rest2 => if c2 = ')' then some (u1, rest2) else none
          | [] => none := by
        conv_lhs =>
          rw [hsdecomp, hu_split]
        rw [show (authLit ++ (u1 ++ ']' :: u2)) ++
              (authLit ++ (contents ++ ']' :: ')' :: rest)) =
            authLit ++ (u1 ++ ']' ::
              (u2 ++ (authLit ++ (contents ++ ']' :: ')' :: rest)))) from by simp,
          matchAuthAt_eval_parts u1 hu1clean]
        rfl
      have hnewEval : matchAuthAt (s ++ (authLit ++ (']' :: ')' :: rest))) =
          match u2 ++ (authLit ++ (']' :: ')' :: rest)) with
          | c2 :: rest2 => if c2 = ')' then some (u1, rest2) else none
          | [] => none := by
        conv_lhs =>
          rw [hsdecomp, hu_split]
        rw [show (authLit ++ (u1 ++ ']' :: u2)) ++
              (authLit ++ (']' :: ')' :: rest)) =
            authLit ++ (u1 ++ ']' ::
              (u2 ++ (authLit ++ (']' :: ')' :: rest)))) from by simp,
          matchAuthAt_eval_parts u1 hu1clean]
        rfl
      rw [holdEval] at hold
      rw [hnewEval]
      cases u2 with
      | nil =>
        cases hA : authLit with
        | nil => exact absurd hA (by decide)
        | cons a0 aT =>
          have ha0 : a0 = 'C' := by
            have hhead : authLit.head? = some 'C' := rfl
            rw [hA] at hhead
            simp only [List.head?_cons, Option.some.injEq] at hhead
            exact hhead
          subst ha0
          simp only [List.nil_append, hA, List.cons_append]
          rw [if_neg (by decide)]
      | cons c2 u2' =>
        simp only [List.cons_append] at hold ⊢
        by_cases hc2 : c2 = ')'
        · rw [if_pos hc2] at hold
          cases hold
        · rw [if_neg hc2]

/-- Rerunning the auth-clear on its own output always reports "no change". -/
theorem removeAuthOnly_rerun (t : Str) :
    (removeAuthOnly (removeAuthOnly t).1).2 = false := by
  cases hfs : findAuthSplit t with
  | none =>
    have h1 : removeAuthOnly t = (t, false) := by
      unfold removeAuthOnly
      rw [hfs]
    rw [h1]
    show (removeAuthOnly t).2 = false
    rw [h1]
  | some pr =>
    obtain ⟨p, contents, rest⟩ := pr
    obtain ⟨hdec, hclean, hfail⟩ := findAuthSplit_spec hfs
    by_cases ht : (trimSpace contents).isEmpty = true
    · have h1 : removeAuthOnly t = (t, false) := by
        unfold removeAuthOnly
        rw [hfs]
        show (if (trimSpace contents).isEmpty = true then ((t : Str), false)
          else (p ++ authRepl ++ rest, true)) = (t, false)
        rw [if_pos ht]
      rw [h1]
      show (removeAuthOnly t).2 = false
      rw [h1]
    · have h1 : removeAuthOnly t = (p ++ authRepl ++ rest, true) := by
        unfold removeAuthOnly
        rw [hfs]
        show (if (trimSpace contents).isEmpty = true then ((t : Str), false)
          else (p ++ authRepl ++ rest, true)) = (p ++ authRepl ++ rest, true)
        rw [if_neg ht]
      rw [h1]
      show (removeAuthOnly (p ++ authRepl ++ rest)).2 = false
      have hfs2 : findAuthSplit (p ++ authRepl ++ rest) =
          some (p, [], rest) := by
        rw [authRepl_eq,
          show p ++ (authLit ++ [']', ')']) ++ rest =
            p ++ (authLit ++ ([] ++ ']' :: ')' :: rest)) from by simp]
        apply findAuthSplit_append
        · intro i hi
          have hstep : t.drop i = p.drop i ++ (authLit ++ (contents ++ ']' :: ')' :: rest)) := by
            rw [hdec, List.drop_append_of_le_length (le_of_lt hi)]
          have hold : matchAuthAt
              (p.drop i ++ (authLit ++ (contents ++ ']' :: ')' :: rest))) = none := by
            rw [← hstep]
            exact hfail i hi
          have hs_ne : p.drop i ≠ [] := by
            intro hnil
            have := congrArg List.length hnil
            simp at this
            omega
          have := matchAuthAt_transfer hs_ne hclean hold
          simpa using this
        · exact matchAuthAt_of_clean [] rest (by simp)
      unfold removeAuthOnly
      rw [hfs2]
      show (if (trimSpace ([] : Str)).isEmpty = true
          then ((p ++ authRepl ++ rest : Str), false)
          else (p ++ authRepl ++ rest, true)).2 = false
      rw [if_pos (show (trimSpace ([] : Str)).isEmpty = true from rfl)]


/-- **C8 counterexample.**  Only the leftmost assignment is ever examined:
when an already-empty assignment precedes a non-empty one, the Auth-Clearer
reports "no change" even though the shape with non-blank bracket contents is
present in the text (a match with contents `"gpt-5"` exists at offset 38). -/
theorem claim_C8_counterexample :
    removeAuthOnly (("CHAT_GPT_AUTH_ONLY_MODELS=new Set([]) " ++
        "CHAT_GPT_AUTH_ONLY_MODELS=new Set([\"gpt-5\"])").toList) =
      ((("CHAT_GPT_AUTH_ONLY_MODELS=new Set([]) " ++
        "CHAT_GPT_AUTH_ONLY_MODELS=new Set([\"gpt-5\"])").toList), false) ∧
    matchAuthAt ((("CHAT_GPT_AUTH_ONLY_MODELS=new Set([]) " ++
        "CHAT_GPT_AUTH_ONLY_MODELS=new Set([\"gpt-5\"])").toList).drop 38) =
      some ("\"gpt-5\"".toList, []) := by
  refine ⟨by decide, by decide⟩

/-- **C8 (amended).**  The Auth-Clearer examines the *leftmost* assignment of
the shape `CHAT_GPT_AUTH_ONLY_MODELS=new Set([...])`: it replaces that whole
assignment with `new Set([])` exactly when its bracket contents are non-blank
after trimming; with blank contents, or with no assignment present at all, it
returns the text unchanged reporting "no change"; and a subsequent run on any
output of the Auth-Clearer always reports "no change" for that step. -/
theorem claim_C8_amended (text p contents rest : Str)
    (hsplit : text = p ++ (authLit ++ (contents ++ ']' :: ')' :: rest)))
    (hcont : ∀ y ∈ contents, y ≠ ']')
    (hleft : ∀ i, i < p.length → (authLit.isPrefixOf (text.drop i)) = false) :
    ((trimSpace contents).isEmpty = false →
        removeAuthOnly text = (p ++ authRepl ++ rest, true)) ∧
      ((trimSpace contents).isEmpty = true → removeAuthOnly text = (text, false)) ∧
      (∀ t : Str, (∀ i, matchAuthAt (t.drop i) = none) →
        removeAuthOnly t = (t, false)) ∧
      (∀ t : Str, (removeAuthOnly (removeAuthOnly t).1).2 = false) := by
  have hfs : findAuthSplit text = some (p, contents, rest) := by
    rw [hsplit]
    apply findAuthSplit_append
    · intro i hi
      apply matchAuthAt_none_unmatched
      have hx := hleft i hi
      rw [hsplit, List.drop_append_of_le_length (le_of_lt hi)] at hx
      exact ne_true_of_eq_false hx
    · exact matchAuthAt_of_clean contents rest hcont
  refine ⟨?_, ?_, ?_, removeAuthOnly_rerun⟩
  · intro hne
    unfold removeAuthOnly
    rw [hfs]
    show (if (trimSpace contents).isEmpty = true then ((text : Str), false)
      else (p ++ authRepl ++ rest, true)) = (p ++ authRepl ++ rest, true)
    rw [if_neg (ne_true_of_eq_false hne)]
  · intro hemp
    unfold removeAuthOnly
    rw [hfs]
    show (if (trimSpace contents).isEmpty = true then ((text : Str), false)
      else (p ++ authRepl ++ rest, true)) = (text, false)
    rw [if_pos hemp]
  · intro t hall
    unfold removeAuthOnly
    rw [findAuthSplit_none hall]

/-- **C8 witness.** -/
theorem claim_C8_witness :
    removeAuthOnly ("xCHAT_GPT_AUTH_ONLY_MODELS=new Set([\"gpt-5\"])y".toList) =
      ("x".toList ++ authRepl ++ "y".toList, true) :=
  (claim_C8_amended ("xCHAT_GPT_AUTH_ONLY_MODELS=new Set([\"gpt-5\"])y".toList)
      ("x".toList) ("\"gpt-5\"".toList) ("y".toList) (by decide) (by decide)
      (by decide)).1 (by decide)


/-! ### Claim C10: every occurrence of the field shape is rewritten -/

theorem replaceAllWith_nil (m : Str → Option (Str × Str)) (repl : Str) :
    ∀ fuel, replaceAllWith m repl fuel [] = []
  | 0 => rfl
  | _ + 1 => rfl

theorem replaceAllWith_step {m : Str → Option (Str × Str)} {repl l mt rest : Str}
    {fuel : Nat} (hm : m l = some (mt, rest)) (hl : l ≠ []) (hf : fuel ≠ 0) :
    replaceAllWith m repl fuel l =
      expandRepl mt repl.length repl ++ replaceAllWith m repl (fuel - 1) rest := by
  cases fuel with
  | zero => exact absurd rfl hf
  | succ f =>
    cases l with
    | nil => exact absurd rfl hl
    | cons c cs =>
      simp only [replaceAllWith]
      rw [hm]
      rfl

theorem replaceAllWith_skip {m : Str → Option (Str × Str)} {repl : Str} :
    ∀ (s : Str) (k : Nat) (tail : Str),
      (∀ i, i < s.length → m (s.drop i ++ tail) = none) →
      replaceAllWith m repl (s.length + k) (s ++ tail) =
        s ++ replaceAllWith m repl k tail
  | [], k, tail, _ => by simp
  | c :: s', k, tail, hfail => by
    have h0 : m (c :: (s' ++ tail)) = none := by
      have := hfail 0 (by simp)
      simpa using this
    have hstep : (c :: s').length + k = (s'.length + k) + 1 := by
      simp only [List.length_cons]
      omega
    rw [hstep]
    show replaceAllWith m repl ((s'.length + k) + 1) (c :: (s' ++ tail)) =
      (c :: s') ++ replaceAllWith m repl k tail
    simp only [replaceAllWith]
    rw [h0, replaceAllWith_skip s' k tail
      (fun i hi => by
        have := hfail (i + 1) (by simp only [List.length_cons]; omega)
        simpa using this)]
    rfl

theorem expandRepl_no_dollar (mt : Str) :
    ∀ (fuel : Nat) (l : Str), (∀ y ∈ l, y ≠ '$') → expandRepl mt fuel l = l
  | 0, l, _ => by cases l <;> rfl
  | _ + 1, [], _ => rfl
  | fuel + 1, c :: cs, h => by
    simp only [expandRepl]
    rw [if_neg (h c (by simp)), expandRepl_no_dollar mt fuel cs
      (fun y hy => h y (by simp [hy]))]

/-- One step of the scanner at a position where the matcher fails. -/
theorem replaceAllWith_cons_none {m : Str → Option (Str × Str)} {repl : Str}
    {c : Char} {cs : Str} (f : Nat) (h : m (c :: cs) = none) :
    replaceAllWith m repl (f + 1) (c :: cs) = c :: replaceAllWith m repl f cs := by
  simp only [replaceAllWith]
  rw [h]

/-- On a text in which the matcher fails at every position, the scanner is the
identity, whatever the fuel. -/
theorem replaceAllWith_clean {m : Str → Option (Str × Str)} {repl : Str} :
    ∀ (f : Nat) (l : Str), (∀ j, j < l.length → m (l.drop j) = none) →
      replaceAllWith m repl f l = l
  | 0, l, _ => by cases l <;> rfl
  | _ + 1, [], _ => rfl
  | f + 1, c :: cs, h => by
    have h0 : m (c :: cs) = none := by simpa using h 0 (by simp)
    rw [replaceAllWith_cons_none f h0, replaceAllWith_clean f cs
      (fun j hj => by
        have := h (j + 1) (by simp only [List.length_cons]; omega)
        simpa using this)]

/-- The text assembled from alternating gap/match chunks followed by a final
gap: the canonical decomposition of a text along its leftmost non-overlapping
matches. -/
def chunksText (chunks : List (Str × Str)) (final : Str) : Str :=
  match chunks with
  | [] => final
  | (s, mt) :: rest => s ++ (mt ++ chunksText rest final)

/-- The same decomposition with every matched span replaced by the
`$`-expansion of the replacement template against that span, which is what
`ReplaceAllString` writes. -/
def chunksOut (repl : Str) (chunks : List (Str × Str)) (final : Str) : Str :=
  match chunks with
  | [] => final
  | (s, mt) :: rest =>
    s ++ (expandRepl mt repl.length repl ++ chunksOut repl rest final)

/-- The decomposition with every matched span replaced by the template
verbatim — the specification's words "rewrites every occurrence with the
synthesized array". -/
def chunksOutLit (repl : Str) (chunks : List (Str × Str)) (final : Str) : Str :=
  match chunks with
  | [] => final
  | (s, _) :: rest => s ++ (repl ++ chunksOutLit repl rest final)

/-- `chunks`/`final` really is the leftmost non-overlapping match
decomposition of the assembled text for matcher `m`: no match starts inside
any gap (including the final one), and each listed span is exactly what `m`
matches at its position. -/
def goodChunks (m : Str → Option (Str × Str)) :
    List (Str × Str) → Str → Prop
  | [], final => ∀ j, j < final.length → m (final.drop j) = none
  | (s, mt) :: rest, final =>
    (∀ j, j < s.length → m (s.drop j ++ (mt ++ chunksText rest final)) = none) ∧
    m (mt ++ chunksText rest final) = some (mt, chunksText rest final) ∧
    mt ≠ [] ∧ goodChunks m rest final

/-- `ReplaceAllString` rewrites **every** span of the decomposition: the
scanner maps `chunksText` to `chunksOut`, for any sufficient fuel. -/
theorem replaceAllWith_chunks {m : Str → Option (Str × Str)} {repl : Str}
    (final : Str) :
    ∀ (chunks : List (Str × Str)) (f : Nat),
      (chunksText chunks final).length ≤ f → goodChunks m chunks final →
      replaceAllWith m repl f (chunksText chunks final) =
        chunksOut repl chunks final := by
  intro chunks
  induction chunks with
  | nil => exact fun f _ hg => replaceAllWith_clean f final hg
  | cons head rest ih =>
    obtain ⟨s, mt⟩ := head
    intro f hf hg
    obtain ⟨hskip, hmatch, hne, hgood⟩ := hg
    have hlen : s.length + (mt.length + (chunksText rest final).length) ≤ f := by
      have h1 : (chunksText ((s, mt) :: rest) final).length =
          s.length + (mt.length + (chunksText rest final).length) := by
        simp [chunksText]
      rw [h1] at hf
      exact hf
    have hmtpos : 1 ≤ mt.length := List.length_pos.mpr hne
    have hfeq : f = s.length + (f - s.length) := by omega
    rw [show chunksText ((s, mt) :: rest) final =
        s ++ (mt ++ chunksText rest final) from rfl, hfeq,
      replaceAllWith_skip s (f - s.length) (mt ++ chunksText rest final) hskip,
      replaceAllWith_step hmatch
        (fun hc => hne (List.append_eq_nil.mp hc).1) (by omega),
      ih (f - s.length - 1) (by omega) hgood]
    rfl

/-- When the replacement template holds no `$`, the expansion is the template
verbatim at every span. -/
theorem chunksOut_no_dollar {repl : Str} (hclean : ∀ y ∈ repl, y ≠ '$')
    (final : Str) :
    ∀ chunks : List (Str × Str),
      chunksOut repl chunks final = chunksOutLit repl chunks final
  | [] => rfl
  | (s, mt) :: rest => by
    show s ++ (expandRepl mt repl.length repl ++ chunksOut repl rest final) =
      s ++ (repl ++ chunksOutLit repl rest final)
    rw [expandRepl_no_dollar mt repl.length repl hclean,
      chunksOut_no_dollar hclean final rest]

/-- **C10 counterexample.**  "rewrites every occurrence of that shape with
the synthesized array" fails literally when an item carries a `$` reference:
`ReplaceAllString` expands `$0` to the matched span, so each occurrence is
rewritten with a *different* text, none of them the synthesized field text.
The item list is reachable in the pipeline: a `DEFAULT_MODEL_ORDER=["$0"]`
declaration puts the identifier `$0` into the candidate set, as the
`ensureApikey` conjunct shows end to end. -/
theorem claim_C10_counterexample :
    (replaceAuthMethodArray ("apikey:[a] apikey:[b]".toList) ("apikey".toList)
          ["\"$0\"".toList]).1 =
        "apikey:[\"apikey:[a]\"] apikey:[\"apikey:[b]\"]".toList ∧
      (replaceAuthMethodArray ("apikey:[a] apikey:[b]".toList)
          ("apikey".toList) ["\"$0\"".toList]).1 ≠
        newFieldOf ("apikey".toList) ["\"$0\"".toList] ++ " ".toList ++
          newFieldOf ("apikey".toList) ["\"$0\"".toList] ∧
      ensureApikey
          ("apikey:[a] apikey:[b] DEFAULT_MODEL_ORDER=[\"$0\"]".toList) true =
        ("apikey:[\"apikey:[a]\"] apikey:[\"apikey:[b]\"] DEFAULT_MODEL_ORDER=[\"$0\"]".toList,
          true) := by
  exact ⟨by decide, by decide, by decide⟩

/-- **C10 (amended).**  For every field name and every text, read through its
leftmost non-overlapping match decomposition (`goodChunks`) with at least one
matched span: (1) when the spans are the array-literal shape, the Patcher
rewrites *every* span, not only the first, to the `$`-expansion of the
synthesized field text; (2) when the array shape matches nowhere in the text
and the spans are the symbolic-reference shape, likewise every span is
rewritten; (3) the `$`-expansion is the synthesized field text verbatim
whenever that text holds no `$` character. -/
theorem claim_C10_amended (field final : Str) (items : List Str)
    (chunks : List (Str × Str)) (hne : chunks ≠ []) :
    (goodChunks (matchFieldArrayAt field) chunks final →
        replaceAuthMethodArray (chunksText chunks final) field items =
          (chunksOut (newFieldOf field items) chunks final, true)) ∧
      ((∀ j, j ≤ (chunksText chunks final).length →
            matchFieldArrayAt field ((chunksText chunks final).drop j) = none) →
        goodChunks (matchFieldVarAt field) chunks final →
        replaceAuthMethodArray (chunksText chunks final) field items =
          (chunksOut (newFieldOf field items) chunks final, true)) ∧
      ((∀ y ∈ newFieldOf field items, y ≠ '$') →
        chunksOut (newFieldOf field items) chunks final =
          chunksOutLit (newFieldOf field items) chunks final) := by
  refine ⟨?_, ?_, ?_⟩
  · intro hg
    cases chunks with
    | nil => exact absurd rfl hne
    | cons head rest =>
      obtain ⟨s, mt⟩ := head
      have hhas : hasMatchWith (matchFieldArrayAt field)
          (chunksText ((s, mt) :: rest) final).length
          (chunksText ((s, mt) :: rest) final) = true :=
        (hasArrayMatch_iff field (chunksText ((s, mt) :: rest) final)).mpr
          ⟨mt ++ chunksText rest final, ⟨s, rfl⟩, by rw [hg.2.1]; rfl⟩
      unfold replaceAuthMethodArray
      rw [if_pos hhas,
        replaceAllWith_chunks final ((s, mt) :: rest)
          (chunksText ((s, mt) :: rest) final).length le_rfl hg]
  · intro habs hg
    have h1 : hasMatchWith (matchFieldArrayAt field)
        (chunksText chunks final).length (chunksText chunks final) = false := by
      cases h : hasMatchWith (matchFieldArrayAt field)
          (chunksText chunks final).length (chunksText chunks final)
      · rfl
      · exfalso
        obtain ⟨u, ⟨p, hp⟩, hsome⟩ :=
          (hasArrayMatch_iff field (chunksText chunks final)).mp h
        have hu : (chunksText chunks final).drop p.length = u := by
          rw [← hp, List.drop_left]
        have hple : p.length ≤ (chunksText chunks final).length := by
          have := congrArg List.length hp
          simp only [List.length_append] at this
          omega
        rw [← hu, habs p.length hple] at hsome
        exact Bool.noConfusion hsome
    cases chunks with
    | nil => exact absurd rfl hne
    | cons head rest =>
      obtain ⟨s, mt⟩ := head
      have hhas : hasMatchWith (matchFieldVarAt field)
          (chunksText ((s, mt) :: rest) final).length
          (chunksText ((s, mt) :: rest) final) = true :=
        (hasVarMatch_iff field (chunksText ((s, mt) :: rest) final)).mpr
          ⟨mt ++ chunksText rest final, ⟨s, rfl⟩, by rw [hg.2.1]; rfl⟩
      unfold replaceAuthMethodArray
      rw [if_neg (ne_true_of_eq_false h1), if_pos hhas,
        replaceAllWith_chunks final ((s, mt) :: rest)
          (chunksText ((s, mt) :: rest) final).length le_rfl hg]
  · intro hclean
    exact chunksOut_no_dollar hclean final chunks

/-- **C10 witness**: `xapikey:[a] yapikey:[b]z` decomposes into two
array-shape spans with gaps `x`, ` y`, `z`; both spans are rewritten.  The
hypotheses are checked at the concrete decomposition. -/
theorem claim_C10_witness :
    replaceAuthMethodArray
        (chunksText [("x".toList, "apikey:[a]".toList),
          (" y".toList, "apikey:[b]".toList)] ("z".toList))
        ("apikey".toList) ["\"m\"".toList] =
      (chunksOut (newFieldOf ("apikey".toList) ["\"m\"".toList])
        [("x".toList, "apikey:[a]".toList), (" y".toList, "apikey:[b]".toList)]
        ("z".toList), true) :=
  (claim_C10_amended ("apikey".toList) ("z".toList) ["\"m\"".toList]
      [("x".toList, "apikey:[a]".toList), (" y".toList, "apikey:[b]".toList)]
      (by decide)).1
    ⟨by decide, by decide, by decide, by decide, by decide, by decide,
      by
        show ∀ j, j < ("z".toList).length →
          matchFieldArrayAt ("apikey".toList) (("z".toList).drop j) = none
        decide⟩

end CodexPatch
